import Mathlib

/-!
# Verification of the treys five-card lookup table, draw tables and Omaha evaluator

This file gives a shallow embedding of `treys/lookup.py` (the five-card
rank table, the three- and four-card draw tables, and the `next_word`
bit-sequence generator) and of `omaha/omahaevaluator.py` (the 8/9/10-card
evaluator path), together with theorems checking the repository's
specification against that embedding.

Conventions of the embedding:
* Python arbitrary-precision integers become `Nat` (all values reached by
  the table builders are non-negative); the one function that uses `&`
  with a negated operand, `next_word`, is additionally embedded over `Int`
  with genuine two's-complement bitwise operations, and the two embeddings
  are proved to agree on positive words.
* Python dicts become either association lists (when a claim needs to
  inspect all stored entries) or lookup traces (lists of key/value
  assignments in program order; a dict lookup is the last assignment to
  the key, which is exactly Python's overwrite semantics).  Insertion
  order of distinct keys is not observable by any statement proved here.
* `treys/card.py` and `treys/evaluator.py` are not part of the sources;
  definitions taken from them are modelled from the spec and marked as such.
-/


/-! ## Definitions -/

/-! ## The bit-sequence generator, `next_word` (lookup.py lines 804-822) -/
instance : AndOp Int := ⟨Int.land⟩

instance : OrOp Int := ⟨Int.lor⟩

/-- One step of the generator in `next_word` (lookup.py lines 818-821),
embedded over `Int` with Python's two's-complement `&`, `|`, floor
division `//` and arithmetic shift `>>`:
`t = (w | (w - 1)) + 1; w = t | ((((t & -t) // (w & -w)) >> 1) - 1)`. -/
def next_word (w : Int) : Int :=
  let t := (w ||| (w - 1)) + 1
  t ||| ((((t &&& (-t)).fdiv (w &&& (-w))) >>> (1 : Int)) - 1)

/-- The same generator step over `Nat`.  For a positive word `x`, Python's
`x & -x` is the lowest set bit of `x`, which over `Nat` is
`x - (x &&& (x - 1))`; the theorem `next_word_agrees_on_nat` proves that
this function agrees with the literal `Int` embedding `next_word` on
every positive word. -/
def nextWordN (w : Nat) : Nat :=
  let t := (w ||| (w - 1)) + 1
  t ||| ((((t - (t &&& (t - 1))) / (w - (w &&& (w - 1)))) >>> 1) - 1)

/-- The first `n` values yielded by the generator `next_word(w)`: the
generator never yields its seed, so the list starts at `nextWordN w`. -/
def genFrom (w : Nat) : Nat → List Nat
  | 0 => []
  | n + 1 => nextWordN w :: genFrom (nextWordN w) n

/-- The value of the `i`-th yield (0-based) of the generator seeded at `seed`. -/
def nextWordSeq (seed : Nat) : Nat → Nat
  | 0 => nextWordN seed
  | i + 1 => nextWordN (nextWordSeq seed i)

/-- Number of set bits of a natural number ("k bits set" in the spec). -/
def popCount (n : Nat) : Nat :=
  if h : n = 0 then 0
  else n % 2 + popCount (n / 2)
decreasing_by exact Nat.div_lt_self (Nat.pos_of_ne_zero h) (by omega)

/-- The predecessor of the `i`-th yield in the generated sequence: the
seed for the first yield, the previous yield afterwards. -/
def genPred (seed : Nat) : Nat → Nat
  | 0 => seed
  | i + 1 => nextWordSeq seed i

/-! ## The card module interface (external collaborator)

`treys/card.py` is not among the sources; the two members the lookup
tables consume are modelled from the spec. -/
/-- Modelled from the spec: `card.PRIMES`, "a fixed table of 13 distinct
small primes indexed by rank 0..12", "smallest prime per lowest rank". -/
def PRIMES : List Nat := [2, 3, 5, 7, 11, 13, 17, 19, 23, 29, 31, 37, 41]

/-- The prime associated with a rank index (0 for an out-of-range index,
which no table construction ever uses). -/
def prime (i : Nat) : Nat := PRIMES.getD i 0

/-- Modelled from the spec: the prime-product half of
`card.product_from_rankbits`, "a function that, given a 13-bit mask with
exactly k bits set (each bit representing one of the 13 ranks), returns
the list of k canonical cards it represents and the product of their
primes"; only the product is used by the statements below. -/
def product_from_rankbits (bits : Nat) : Nat :=
  ((List.range 13).filter (fun i => bits.testBit i)).foldl (fun acc i => acc * prime i) 1

/-! ## The five-card lookup table (lookup.py lines 5-238) -/
/-- `LookupTable.MAX_STRAIGHT_FLUSH` (lookup.py line 28). -/
def MAX_STRAIGHT_FLUSH : Nat := 10

/-- `LookupTable.MAX_FOUR_OF_A_KIND` (lookup.py line 29). -/
def MAX_FOUR_OF_A_KIND : Nat := 166

/-- `LookupTable.MAX_FULL_HOUSE` (lookup.py line 30). -/
def MAX_FULL_HOUSE : Nat := 322

/-- `LookupTable.MAX_FLUSH` (lookup.py line 31). -/
def MAX_FLUSH : Nat := 1599

/-- `LookupTable.MAX_STRAIGHT` (lookup.py line 32). -/
def MAX_STRAIGHT : Nat := 1609

/-- `LookupTable.MAX_THREE_OF_A_KIND` (lookup.py line 33). -/
def MAX_THREE_OF_A_KIND : Nat := 2467

/-- `LookupTable.MAX_TWO_PAIR` (lookup.py line 34). -/
def MAX_TWO_PAIR : Nat := 3325

/-- `LookupTable.MAX_PAIR` (lookup.py line 35). -/
def MAX_PAIR : Nat := 6185

/-- `LookupTable.MAX_HIGH_CARD` (lookup.py line 36). -/
def MAX_HIGH_CARD : Nat := 7462

/-- Modelled from the spec: the exposed rank classification, "given a
final integer rank, map it to one of the 9 named hand categories using
the boundary constants" (the function itself lives in the absent
`treys/evaluator.py`; the boundary constants and the class numbering
`MAX_TO_RANK_CLASS` are lookup.py lines 38-48). -/
def rank_class (r : Nat) : Nat :=
  if r ≤ MAX_STRAIGHT_FLUSH then 1
  else if r ≤ MAX_FOUR_OF_A_KIND then 2
  else if r ≤ MAX_FULL_HOUSE then 3
  else if r ≤ MAX_FLUSH then 4
  else if r ≤ MAX_STRAIGHT then 5
  else if r ≤ MAX_THREE_OF_A_KIND then 6
  else if r ≤ MAX_TWO_PAIR then 7
  else if r ≤ MAX_PAIR then 8
  else 9

/-- The ten straight-flush rank patterns (lookup.py lines 82-93). -/
def straight_flushes5 : List Nat := [7936, 3968, 1984, 992, 496, 248, 124, 62, 31, 4111]

/-- The flush patterns: 1286 generator pulls seeded at `0b11111`,
straight-flush patterns discarded, reversed to descending strength
(lookup.py lines 96-117). -/
def flushes5 : List Nat :=
  ((genFrom 31 1286).filter (fun f => straight_flushes5.all (fun sf => f ^^^ sf ≠ 0))).reverse

/-- The trace of the loop `for k in ks: d[key] = rank; rank += 1`:
the list of (key, rank) assignments in program order. -/
def assignRun {α : Type} (start : Nat) : List α → List (α × Nat)
  | [] => []
  | k :: ks => (k, start) :: assignRun (start + 1) ks

/-- `backwards_ranks = [12, 11, ..., 0]` (lookup.py line 162). -/
def backwards_ranks : List Nat := (List.range 13).reverse

/-- `itertools.combinations`: all k-element subsequences in the order
itertools yields them (lexicographic by position). -/
def combinations {α : Type} : Nat → List α → List (List α)
  | 0, _ => [[]]
  | _ + 1, [] => []
  | k + 1, x :: xs => (combinations k xs).map (x :: ·) ++ combinations (k + 1) xs

/-- The prime products of the straight-flush patterns, in program order. -/
def sfProducts5 : List Nat := straight_flushes5.map product_from_rankbits

/-- The prime products of the flush patterns, in program order. -/
def flushProducts5 : List Nat := flushes5.map product_from_rankbits

/-- The (quad rank, kicker rank) pairs iterated by the four-of-a-kind
pass, in program order (lookup.py lines 166-172). -/
def quadIter : List (Nat × Nat) :=
  backwards_ranks.flatMap (fun i => (backwards_ranks.erase i).map (fun k => (i, k)))

/-- The four-of-a-kind pass with the iterated rank pair kept alongside
the assigned rank (lookup.py lines 164-175). -/
def quadsAssignments : List ((Nat × Nat) × Nat) :=
  assignRun (MAX_STRAIGHT_FLUSH + 1) quadIter

/-- The keys written by the four-of-a-kind pass (lookup.py line 173). -/
def quadsProducts : List Nat :=
  quadIter.map (fun ik => prime ik.1 ^ 4 * prime ik.2)

/-- The keys written by the full-house pass (lookup.py lines 181-188). -/
def fullHouseProducts : List Nat :=
  backwards_ranks.flatMap (fun i =>
    (backwards_ranks.erase i).map (fun pr => prime i ^ 3 * prime pr ^ 2))

/-- The keys written by the three-of-a-kind pass (lookup.py lines 196-204). -/
def tripsProducts : List Nat :=
  backwards_ranks.flatMap (fun r =>
    (combinations 2 (backwards_ranks.erase r)).map (fun c =>
      match c with
      | [c1, c2] => prime r ^ 3 * prime c1 * prime c2
      | _ => 0))

/-- The keys written by the two-pair pass (lookup.py lines 210-219). -/
def twoPairProducts : List Nat :=
  (combinations 2 backwards_ranks).flatMap (fun tp =>
    match tp with
    | [p1, p2] =>
      ((backwards_ranks.erase p1).erase p2).map (fun k =>
        prime p1 ^ 2 * prime p2 ^ 2 * prime k)
    | _ => [])

/-- The keys written by the pair pass (lookup.py lines 227-236). -/
def pairProducts : List Nat :=
  backwards_ranks.flatMap (fun pairrank =>
    (combinations 3 (backwards_ranks.erase pairrank)).map (fun c =>
      match c with
      | [k1, k2, k3] => prime pairrank ^ 2 * prime k1 * prime k2 * prime k3
      | _ => 0))

/-- Straight-flush pass of `build_flushes` (lookup.py lines 123-127). -/
def sfTrace5 : List (Nat × Nat) := assignRun 1 sfProducts5

/-- Flush pass of `build_flushes` (lookup.py lines 131-135). -/
def flushTrace5 : List (Nat × Nat) := assignRun (MAX_FULL_HOUSE + 1) flushProducts5

/-- Straight pass of `build_straight_and_highcards` (lookup.py lines 147-151). -/
def straightTrace5 : List (Nat × Nat) := assignRun (MAX_FLUSH + 1) sfProducts5

/-- High-card pass of `build_straight_and_highcards` (lookup.py lines 152-156). -/
def highcardTrace5 : List (Nat × Nat) := assignRun (MAX_PAIR + 1) flushProducts5

/-- Four-of-a-kind pass of `build_multiples` (lookup.py lines 164-175). -/
def quadsTrace5 : List (Nat × Nat) := assignRun (MAX_STRAIGHT_FLUSH + 1) quadsProducts

/-- Full-house pass of `build_multiples` (lookup.py lines 178-190). -/
def fullHouseTrace5 : List (Nat × Nat) := assignRun (MAX_FOUR_OF_A_KIND + 1) fullHouseProducts

/-- Three-of-a-kind pass of `build_multiples` (lookup.py lines 193-206). -/
def tripsTrace5 : List (Nat × Nat) := assignRun (MAX_STRAIGHT + 1) tripsProducts

/-- Two-pair pass of `build_multiples` (lookup.py lines 209-221). -/
def twoPairTrace5 : List (Nat × Nat) := assignRun (MAX_THREE_OF_A_KIND + 1) twoPairProducts

/-- Pair pass of `build_multiples` (lookup.py lines 224-238). -/
def pairTrace5 : List (Nat × Nat) := assignRun (MAX_TWO_PAIR + 1) pairProducts

/-- All assignments made to `self.flush`, in program order. -/
def flushTableTrace : List (Nat × Nat) := sfTrace5 ++ flushTrace5

/-- All assignments made to `self.unsuited`, in program order
(`build_flushes` calls `build_straight_and_highcards` before
`build_multiples` runs). -/
def unsuitedTableTrace : List (Nat × Nat) :=
  straightTrace5 ++ highcardTrace5 ++ quadsTrace5 ++ fullHouseTrace5 ++
    tripsTrace5 ++ twoPairTrace5 ++ pairTrace5

/-- Dict lookup against an assignment trace: the value of the last
assignment to the key, which is Python's dict overwrite semantics. -/
def lookupTrace (tr : List (Nat × Nat)) (k : Nat) : Option Nat :=
  (tr.reverse.find? (fun e => e.1 = k)).map (·.2)

/-- `LookupTable().flush[p]` as a partial lookup. -/
def flushTable5 (p : Nat) : Option Nat := lookupTrace flushTableTrace p

/-- `LookupTable().unsuited[p]` as a partial lookup. -/
def unsuitedTable5 (p : Nat) : Option Nat := lookupTrace unsuitedTableTrace p

/-- Stack-friendly length test. -/
def lenEq {α : Type} : List α → Nat → Bool
  | [], 0 => true
  | [], _ + 1 => false
  | _ :: _, 0 => false
  | _ :: l, n + 1 => lenEq l n

/-! ## The three- and four-card draw tables (lookup.py lines 241-801)

Python stores heterogeneous values in these dicts: lists of ranks in most
passes, bare integer ranks in the plain-flush passes.  The value type
makes that distinction explicit, and the dicts are association lists. -/
inductive Val where
  | int : Nat → Val
  | list : List Nat → Val
deriving DecidableEq

/-- Is the stored value a Python list? -/
def Val.isList : Val → Bool
  | .list _ => true
  | .int _ => false

/-- Insert into an ascending list (used to model Python's `list.sort()`;
the sorted lists here are duplicate-free, so stability is immaterial). -/
def insort (x : Nat) : List Nat → List Nat
  | [] => [x]
  | y :: ys => if x ≤ y then x :: y :: ys else y :: insort x ys

/-- Ascending insertion sort, modelling `list.sort()`. -/
def sortAsc (l : List Nat) : List Nat := l.foldr insort []

/-- An insertion-ordered dict from prime products to stored values. -/
abbrev OD := List (Nat × Val)

/-- `d.get(k)`. -/
def odGet (m : OD) (k : Nat) : Option Val := (m.find? (fun e => e.1 = k)).map (·.2)

/-- Python truthiness of `d.get(k)` (`None` and empty containers and zero
are falsy). -/
def truthy : Option Val → Bool
  | none => false
  | some (.int n) => n != 0
  | some (.list l) => !l.isEmpty

/-- `d[k] = v`: update in place if the key is present, else append. -/
def odSet (m : OD) (k : Nat) (v : Val) : OD :=
  if m.any (fun e => e.1 = k) then m.map (fun e => if e.1 = k then (e.1, v) else e)
  else m ++ [(k, v)]

/-- `d[k].append(r)` on a stored list; a stored bare int is returned
unchanged (in Python that call would raise, and no construction path
reaches it). -/
def bump (r : Nat) : Val → Val
  | .list l => .list (l ++ [r])
  | .int n => .int n

/-- The draw tables' re-encounter idiom:
`if exist_key: d[k].append(rank) else: d[k] = [rank]`. -/
def odAppendOrNew (m : OD) (k r : Nat) : OD :=
  if truthy (odGet m k) then m.map (fun e => if e.1 = k then (e.1, bump r e.2) else e)
  else odSet m k (.list [r])

/-- An assignment loop with the draw tables' rank/co counters: each entry
is appended at the current rank, and the rank advances every 10 entries
(lookup.py lines 336-350). -/
def runPassCo (m : OD) (rank co : Nat) : List Nat → OD
  | [] => m
  | p :: ps =>
    if co == 9 then runPassCo (odAppendOrNew m p rank) (rank + 1) 0 ps
    else runPassCo (odAppendOrNew m p rank) rank (co + 1) ps

/-- A plain append-style assignment loop:
`for p in ps: append-or-new; rank += 1`. -/
def runPass (m : OD) (rank : Nat) : List Nat → OD
  | [] => m
  | p :: ps => runPass (odAppendOrNew m p rank) (rank + 1) ps

/-- A plain-flush assignment loop, which stores the bare integer rank:
`for f in flushes: d[product] = rank; rank += 1` (lookup.py lines 359-362). -/
def runPassInt (m : OD) (rank : Nat) : List Nat → OD
  | [] => m
  | p :: ps => runPassInt (odSet m p (.int rank)) (rank + 1) ps

/-- `LookupTableThreeCards` boundary constants (lookup.py lines 272-279). -/
def T3_MAX_STRAIGHT_FLUSH : Nat := 10

def T3_MAX_FOUR_OF_A_KIND : Nat := 179

def T3_MAX_FULL_HOUSE : Nat := 348

def T3_MAX_FLUSH : Nat := 570

def T3_MAX_STRAIGHT : Nat := 580

def T3_MAX_THREE_OF_A_KIND : Nat := 1022

def T3_MAX_TWO_PAIR : Nat := 1464

/-- The window sequence for 3-card straight-flush draws: the seed `0b111`
plus nine generator pulls, reversed (lookup.py lines 303-311). -/
def sequence3 : List Nat := (7 :: genFrom 7 9).reverse

/-- 3-card straight-flush draw patterns: the windows shifted through all
positions, then the wheel group seeded at `0b1000000000011`, then the
low group seeded at `0b111` (lookup.py lines 313-328). -/
def straight_flushes3 : List Nat :=
  ((List.range 9).reverse.flatMap (fun i => sequence3.map (fun a => a <<< i)))
  ++ (4099 :: genFrom 4099 5) ++ (7 :: genFrom 7 3)

/-- 3-card flush draw patterns: 285 generator pulls seeded at `0b111`,
straight-flush-draw patterns removed via set difference, sorted and
reversed (lookup.py lines 330-356). -/
def flushes3 : List Nat :=
  (sortAsc ((genFrom 7 285).filter (fun f => !straight_flushes3.contains f))).reverse

/-- The flush map of `LookupTableThreeCards`: the straight-flush pass
appends list values under the rank/co counters, then the plain flush pass
assigns bare integer ranks (lookup.py lines 336-362). -/
def flushMap3 : OD :=
  runPassInt (runPassCo [] 1 0 (straight_flushes3.map product_from_rankbits))
    (T3_MAX_FULL_HOUSE + 1) (flushes3.map product_from_rankbits)

/-- Keys `PRIMES[i]**3` for the trip-source loops of the 3-card multiples
passes (lookup.py lines 395-402). -/
def threeTripleKeys : List Nat := backwards_ranks.map (fun i => prime i ^ 3)

/-- Keys `PRIMES[i]**2 * PRIMES[k]` for the pair-source loops of the
3-card multiples passes (lookup.py lines 405-418). -/
def threePairKickerKeys : List Nat :=
  backwards_ranks.flatMap (fun i =>
    (backwards_ranks.erase i).map (fun k => prime i ^ 2 * prime k))

/-- Keys for the high-card-source combination loops of the 3-card
multiples passes (lookup.py lines 480-489). -/
def threeHighcardKeys : List Nat :=
  (combinations 3 backwards_ranks).map (fun c =>
    match c with
    | [c1, c2, c3] => prime c1 * prime c2 * prime c3
    | _ => 0)

/-- The loop variable `i` read by the 3-card two-pair pass: that pass's
product expression `card.PRIMES[i]**2 * card.PRIMES[k]` (lookup.py line
501) does not use the pass's own loop variable `r`; `i` still holds the
final iterate of the previous pass's `for i in backwards_ranks` loop. -/
def iStale3 : Nat := backwards_ranks.getLastD 0

/-- The (r, k) pairs iterated by the 3-card two-pair pass together with
the key actually written for each, `PRIMES[i]**2 * PRIMES[k]` with the
stale `i` (lookup.py lines 495-507). -/
def threeTwoPairAssignments : List ((Nat × Nat) × Nat) :=
  backwards_ranks.flatMap (fun r =>
    (backwards_ranks.erase r).map (fun k => ((r, k), prime iStale3 ^ 2 * prime k)))

/-- The keys written by the first loop of the 3-card two-pair pass. -/
def threeTwoPairStaleKeys : List Nat := threeTwoPairAssignments.map (·.2)

/-- The unsuited map of `LookupTableThreeCards`: the straights pass (run
from `build_flushes`, lookup.py lines 366-385), then the multiples passes
(lookup.py lines 387-534), all through the append-or-new idiom. -/
def unsuitedMap3 : OD :=
  runPass
    (runPass
      (runPass
        (runPass
          (runPass
            (runPassCo [] (T3_MAX_FLUSH + 1) 0 (straight_flushes3.map product_from_rankbits))
            (T3_MAX_STRAIGHT_FLUSH + 1) (threeTripleKeys ++ threePairKickerKeys))
          (T3_MAX_FOUR_OF_A_KIND + 1) (threeTripleKeys ++ threePairKickerKeys))
        (T3_MAX_STRAIGHT + 1) (threePairKickerKeys ++ threeHighcardKeys))
      (T3_MAX_THREE_OF_A_KIND + 1) (threeTwoPairStaleKeys ++ threeHighcardKeys))
    (T3_MAX_TWO_PAIR + 1) threeHighcardKeys

/-- `LookupTableFourCards` boundary constants (lookup.py lines 575-582). -/
def T4_MAX_STRAIGHT_FLUSH : Nat := 10

def T4_MAX_FOUR_OF_A_KIND : Nat := 166

def T4_MAX_FULL_HOUSE : Nat := 478

def T4_MAX_FLUSH : Nat := 1152

def T4_MAX_STRAIGHT : Nat := 1162

def T4_MAX_THREE_OF_A_KIND : Nat := 2020

def T4_MAX_TWO_PAIR : Nat := 2878

/-- The window sequence of `LookupTableFourCards.build_flushes`: the seed
`0b111` plus four generator pulls, reversed (lookup.py lines 606-614). -/
def sequence4 : List Nat := (7 :: genFrom 7 4).reverse

/-- 4-card straight-flush draw patterns (lookup.py lines 616-627). -/
def straight_flushes4 : List Nat :=
  ((List.range 9).reverse.flatMap (fun i => sequence4.map (fun a => a <<< i)))
  ++ (4103 :: genFrom 4103 3) ++ [15]

/-- 4-card flush draw patterns: 714 generator pulls seeded at `0b1111`,
straight-flush-draw patterns removed, sorted and reversed (lookup.py
lines 630-656). -/
def flushes4 : List Nat :=
  (sortAsc ((genFrom 15 714).filter (fun f => !straight_flushes4.contains f))).reverse

/-- The flush map of `LookupTableFourCards` (lookup.py lines 636-662). -/
def flushMap4 : OD :=
  runPassInt (runPassCo [] 1 0 (straight_flushes4.map product_from_rankbits))
    (T4_MAX_FULL_HOUSE + 1) (flushes4.map product_from_rankbits)

/-- Keys `PRIMES[i]**3 * PRIMES[k]` of the 4-card quads pass and the
first full-house loop (lookup.py lines 695-728). -/
def fourTripleKickerKeys : List Nat :=
  backwards_ranks.flatMap (fun i =>
    (backwards_ranks.erase i).map (fun k => prime i ^ 3 * prime k))

/-- Keys `PRIMES[i]**2 * PRIMES[k]**2` of the second full-house loop
(lookup.py lines 731-744). -/
def fourTwoPairSourceKeys : List Nat :=
  backwards_ranks.flatMap (fun i =>
    (backwards_ranks.erase i).map (fun k => prime i ^ 2 * prime k ^ 2))

/-- Keys `PRIMES[pr]**2 * PRIMES[k1] * PRIMES[k2]` of the 4-card trips
and two-pair passes (lookup.py lines 751-786). -/
def fourPairSourceKeys : List Nat :=
  backwards_ranks.flatMap (fun pairrank =>
    (combinations 2 (backwards_ranks.erase pairrank)).map (fun c =>
      match c with
      | [k1, k2] => prime pairrank ^ 2 * prime k1 * prime k2
      | _ => 0))

/-- Keys of the 4-card one-pair pass: products over 4-rank combinations
(lookup.py lines 792-801). -/
def fourHighcardKeys : List Nat :=
  (combinations 4 backwards_ranks).map (fun c =>
    match c with
    | [c1, c2, c3, c4] => prime c1 * prime c2 * prime c3 * prime c4
    | _ => 0)

/-- The unsuited map of `LookupTableFourCards`: straights pass then the
multiples passes (lookup.py lines 666-801). -/
def unsuitedMap4 : OD :=
  runPass
    (runPass
      (runPass
        (runPass
          (runPass
            (runPassCo [] (T4_MAX_FLUSH + 1) 0 (straight_flushes4.map product_from_rankbits))
            (T4_MAX_STRAIGHT_FLUSH + 1) fourTripleKickerKeys)
          (T4_MAX_FOUR_OF_A_KIND + 1) (fourTripleKickerKeys ++ fourTwoPairSourceKeys))
        (T4_MAX_STRAIGHT + 1) fourPairSourceKeys)
      (T4_MAX_THREE_OF_A_KIND + 1) fourPairSourceKeys)
    (T4_MAX_TWO_PAIR + 1) fourHighcardKeys

/-! ## The Omaha evaluator (omahaevaluator.py) -/
/-- Modelled from the spec: the opaque external card entity, exposing a
rank index 0..12 and a suit (one of 4 bitmask values). -/
structure Card where
  rank : Nat
  suit : Nat
deriving DecidableEq

/-- Modelled from the spec: the prime product of a hand, the product of
the per-rank primes of its cards (the perfect-hash key of §3). -/
def product_from_hand (cards : List Card) : Nat :=
  (cards.map (fun c => prime c.rank)).foldl (· * ·) 1

/-- Modelled from the spec: `Evaluator._five` of the absent
`treys/evaluator.py`, "for exactly 5 cards: delegate directly to the
Five-Card Rank Table classification (suited vs. unsuited lookup)";
a failed lookup (malformed input) falls back to 0, a case the spec
excludes from the core's responsibility. -/
def fiveEval (cards : List Card) : Nat :=
  match cards with
  | [] => 0
  | c :: rest =>
    if rest.all (fun d => d.suit = c.suit) then
      (flushTable5 (product_from_hand (c :: rest))).getD 0
    else
      (unsuitedTable5 (product_from_hand (c :: rest))).getD 0

/-- Modelled from the spec: `Evaluator._six`/`_seven` of the absent
`treys/evaluator.py`, "evaluate all C(n,5) five-card subsets, score each
via the Five-Card Rank Table, return the minimum rank found". -/
def bestFiveOf (cards : List Card) : Nat :=
  ((combinations 5 cards).map fiveEval).foldl (fun m s => if s < m then s else m)
    MAX_HIGH_CARD

/-- `all2cardscombos` of `OmahaEvaluator._eightnineten`
(omahaevaluator.py lines 33-35): all 2-card combinations from the first
five cards of the input. -/
def all2cardscombos (cards : List Card) : List (List Card) :=
  combinations 2 (cards.take 5)

/-- `all5cardscombos` of `OmahaEvaluator._eightnineten`
(omahaevaluator.py line 36): each 2-card combination concatenated with
the remaining (board) cards. -/
def all5cardscombos (cards : List Card) : List (List Card) :=
  (all2cardscombos cards).map (fun a => a ++ cards.drop 5)

/-- `OmahaEvaluator._eightnineten` (omahaevaluator.py lines 26-41),
parameterised by the inherited five-card scorer `_five`: start the
minimum at `LookupTable.MAX_HIGH_CARD` and keep every strictly smaller
score. -/
def eightnineten (five : List Card → Nat) (cards : List Card) : Nat :=
  (all5cardscombos cards).foldl
    (fun minimum combo => if five combo < minimum then five combo else minimum)
    MAX_HIGH_CARD

/-- Modelled from the spec: the evaluator entry point dispatching through
`hand_size_map` (omahaevaluator.py lines 15-24 fix its keys to 5..10,
with 8, 9 and 10 all mapped to `_eightnineten`); a length outside the
map's keys "must fail with an unsupported hand size condition". -/
def evaluateHand (cards : List Card) : Except String Nat :=
  if cards.length = 5 then .ok (fiveEval cards)
  else if cards.length = 6 ∨ cards.length = 7 then .ok (bestFiveOf cards)
  else if cards.length = 8 ∨ cards.length = 9 ∨ cards.length = 10 then
    .ok (eightnineten fiveEval cards)
  else .error "unsupported hand size"

/-! ## Theorems -/

set_option maxRecDepth 10000

set_option maxHeartbeats 2000000

theorem popCount_zero : popCount 0 = 0 := by
  unfold popCount; simp

theorem popCount_eq (n : Nat) : popCount n = n % 2 + popCount (n / 2) := by
  by_cases h : n = 0
  · subst h; simp [popCount_zero]
  · rw [popCount]; simp [h]

theorem popCount_one : popCount 1 = 1 := by
  rw [popCount_eq]; simp [popCount_zero]

/-- `popCount` splits across a high part shifted past a low part. -/
theorem popCount_split (k : Nat) :
    ∀ x y : Nat, y < 2 ^ k → popCount (2 ^ k * x + y) = popCount x + popCount y := by
  induction k with
  | zero =>
    intro x y hy
    interval_cases y
    simp [popCount_zero]
  | succ k ih =>
    intro x y hy
    have hform : 2 ^ (k + 1) * x + y = 2 * (2 ^ k * x) + y := by rw [pow_succ]; ring
    rw [popCount_eq (2 ^ (k + 1) * x + y)]
    have hmod : (2 ^ (k + 1) * x + y) % 2 = y % 2 := by rw [hform]; omega
    have hdiv : (2 ^ (k + 1) * x + y) / 2 = 2 ^ k * x + y / 2 := by rw [hform]; omega
    rw [hmod, hdiv, ih x (y / 2) (by rw [pow_succ] at hy; omega)]
    rw [popCount_eq y]
    omega

theorem popCount_mul_pow (k x : Nat) : popCount (2 ^ k * x) = popCount x := by
  have := popCount_split k x 0 (by positivity)
  simpa [popCount_zero] using this

theorem popCount_two_pow_sub_one (b : Nat) : popCount (2 ^ b - 1) = b := by
  induction b with
  | zero => simp [popCount_zero]
  | succ b ih =>
    have h : 2 ^ (b + 1) - 1 = 2 * (2 ^ b - 1) + 1 := by
      have : 1 ≤ 2 ^ b := Nat.one_le_two_pow
      rw [pow_succ]; omega
    rw [h, popCount_eq]
    have hmod : (2 * (2 ^ b - 1) + 1) % 2 = 1 := by omega
    have hdiv : (2 * (2 ^ b - 1) + 1) / 2 = 2 ^ b - 1 := by omega
    rw [hmod, hdiv, ih]
    omega

theorem popCount_two_pow (k : Nat) : popCount (2 ^ k) = 1 := by
  have := popCount_mul_pow k 1
  simpa [popCount_one] using this

theorem popCount_pos_of_pos {n : Nat} (h : 0 < n) : 0 < popCount n := by
  induction n using Nat.strong_induction_on with
  | _ n ih =>
    rw [popCount_eq]
    rcases Nat.lt_or_ge n 2 with h2 | h2
    · interval_cases n
      norm_num [popCount_zero]
    · rcases Nat.even_or_odd n with he | ho
      · have hd : 0 < n / 2 := by omega
        have := ih (n / 2) (by omega) hd
        omega
      · have : n % 2 = 1 := Nat.odd_iff.mp ho
        omega

/-- Any number below `2 ^ m` has at most `m` set bits, with `m` attained
only by `2 ^ m - 1`. -/
theorem popCount_lt_two_pow (m : Nat) :
    ∀ y : Nat, y < 2 ^ m → popCount y ≤ m ∧ (popCount y = m → y = 2 ^ m - 1) := by
  induction m with
  | zero =>
    intro y hy
    interval_cases y
    simp [popCount_zero]
  | succ m ih =>
    intro y hy
    have hhalf : y / 2 < 2 ^ m := by
      rw [pow_succ] at hy; omega
    obtain ⟨hle, heq⟩ := ih (y / 2) hhalf
    rw [popCount_eq y]
    constructor
    · omega
    · intro h
      have hm2 : y % 2 = 1 := by omega
      have : popCount (y / 2) = m := by omega
      have := heq this
      have h2m : 1 ≤ 2 ^ m := Nat.one_le_two_pow
      rw [pow_succ]
      omega

/-! ### Bit-level helper lemmas -/
theorem lor_mul_pow_add (k x y x2 y2 : Nat) (hy : y < 2 ^ k) (hy2 : y2 < 2 ^ k) :
    (2 ^ k * x + y) ||| (2 ^ k * x2 + y2) = 2 ^ k * (x ||| x2) + (y ||| y2) := by
  apply Nat.eq_of_testBit_eq
  intro i
  rw [Nat.testBit_or, Nat.testBit_mul_pow_two_add _ hy, Nat.testBit_mul_pow_two_add _ hy2,
    Nat.testBit_mul_pow_two_add _ (Nat.or_lt_two_pow hy hy2)]
  by_cases h : i < k <;> simp [h, Nat.testBit_or]

theorem land_mul_pow_add (k x y x2 y2 : Nat) (hy : y < 2 ^ k) (hy2 : y2 < 2 ^ k) :
    (2 ^ k * x + y) &&& (2 ^ k * x2 + y2) = 2 ^ k * (x &&& x2) + (y &&& y2) := by
  apply Nat.eq_of_testBit_eq
  intro i
  rw [Nat.testBit_and, Nat.testBit_mul_pow_two_add _ hy, Nat.testBit_mul_pow_two_add _ hy2,
    Nat.testBit_mul_pow_two_add _ (Nat.and_lt_two_pow _ hy2)]
  by_cases h : i < k <;> simp [h, Nat.testBit_and]

theorem two_pow_sub_one_lor (b z : Nat) (hz : z < 2 ^ b) : (2 ^ b - 1) ||| z = 2 ^ b - 1 := by
  apply Nat.eq_of_testBit_eq
  intro i
  rw [Nat.testBit_or, Nat.testBit_two_pow_sub_one]
  by_cases h : i < b
  · simp [h]
  · have : z < 2 ^ i := lt_of_lt_of_le hz (Nat.pow_le_pow_right (by omega) (by omega))
    simp [h, Nat.testBit_lt_two_pow this]

-- (2m+1) and 2m agree on all bits except bit 0

theorem testBit_odd_even (m : Nat) : ∀ j, 0 < j → (2 * m + 1).testBit j = (2 * m).testBit j := by
  intro j hj
  obtain ⟨j, rfl⟩ := Nat.exists_eq_succ_of_ne_zero (by omega : j ≠ 0)
  rw [Nat.testBit_add_one, Nat.testBit_add_one]
  congr 1
  omega

theorem land_pred_odd_mul_pow (k m : Nat) :
    (2 ^ k * (2 * m + 1)) &&& (2 ^ k * (2 * m + 1) - 1) = 2 ^ k * (2 * m) := by
  have hpow : (1:Nat) ≤ 2 ^ k := Nat.one_le_two_pow
  have h1 : 2 ^ k * (2 * m + 1) - 1 = 2 ^ k * (2 * m) + (2 ^ k - 1) := by
    have h2 : 2 ^ k * (2 * m + 1) = 2 ^ k * (2 * m) + 2 ^ k := by ring
    omega
  rw [h1]
  apply Nat.eq_of_testBit_eq
  intro i
  have hb0 : (0:Nat) < 2 ^ k := hpow
  rw [Nat.testBit_and]
  rw [show 2 ^ k * (2 * m + 1) = 2 ^ k * (2 * m + 1) + 0 by omega]
  rw [show 2 ^ k * (2 * m) + (2 ^ k - 1) = 2 ^ k * (2 * m) + (2 ^ k - 1) from rfl]
  rw [Nat.testBit_mul_pow_two_add _ hb0, Nat.testBit_mul_pow_two_add _ (by omega : 2 ^ k - 1 < 2 ^ k)]
  rw [show 2 ^ k * (2 * m) = 2 ^ k * (2 * m) + 0 by omega, Nat.testBit_mul_pow_two_add _ hb0]
  by_cases h : i < k
  · simp [h]
  · simp only [h, if_neg, if_false]
    rcases Nat.eq_zero_or_pos (i - k) with h0 | hpos
    · rw [h0]
      simp [Nat.testBit_zero, Nat.mul_add_mod]
    · rw [testBit_odd_even m _ hpos]
      simp [Bool.and_self]

theorem ldiff_pred_odd_mul_pow (k m : Nat) :
    Nat.ldiff (2 ^ k * (2 * m + 1)) (2 ^ k * (2 * m + 1) - 1) = 2 ^ k := by
  have hpow : (1:Nat) ≤ 2 ^ k := Nat.one_le_two_pow
  have h1 : 2 ^ k * (2 * m + 1) - 1 = 2 ^ k * (2 * m) + (2 ^ k - 1) := by
    have h2 : 2 ^ k * (2 * m + 1) = 2 ^ k * (2 * m) + 2 ^ k := by ring
    omega
  rw [h1]
  apply Nat.eq_of_testBit_eq
  intro i
  have hb0 : (0:Nat) < 2 ^ k := hpow
  rw [Nat.testBit_ldiff]
  rw [show 2 ^ k * (2 * m + 1) = 2 ^ k * (2 * m + 1) + 0 by omega]
  rw [Nat.testBit_mul_pow_two_add _ hb0, Nat.testBit_mul_pow_two_add _ (by omega : 2 ^ k - 1 < 2 ^ k)]
  rw [Nat.testBit_two_pow]
  by_cases h : i < k
  · simp [h]
    omega
  · simp only [h, if_neg, if_false]
    rcases Nat.eq_zero_or_pos (i - k) with h0 | hpos
    · have : i = k := by omega
      rw [h0]
      simp [this]
      omega
    · rw [testBit_odd_even m _ hpos]
      simp
      intro hkk
      omega

theorem nextWordN_eval (H a b : Nat) (hb : 1 ≤ b) :
    nextWordN (2 ^ (a + b + 1) * H + (2 ^ b - 1) * 2 ^ a)
      = 2 ^ (a + b + 1) * H + 2 ^ (a + b) + (2 ^ (b - 1) - 1) := by
  set w := 2 ^ (a + b + 1) * H + (2 ^ b - 1) * 2 ^ a with hw
  have p1 : (1:Nat) ≤ 2 ^ a := Nat.one_le_two_pow
  have p2 : (1:Nat) ≤ 2 ^ b := Nat.one_le_two_pow
  have p2b : (2:Nat) ≤ 2 ^ b := by
    calc (2:Nat) = 2 ^ 1 := by norm_num
    _ ≤ 2 ^ b := Nat.pow_le_pow_right (by omega) hb
  have p3 : (1:Nat) ≤ 2 ^ (a + b) := Nat.one_le_two_pow
  have p4 : (1:Nat) ≤ 2 ^ (b - 1) := Nat.one_le_two_pow
  have pab1 : 2 ^ (a + b + 1) = 2 * 2 ^ (a + b) := by rw [pow_succ]; ring
  have pb1 : 2 ^ b = 2 * 2 ^ (b - 1) := by
    rw [← pow_succ']
    congr 1
    omega
  have pA_lt : 2 ^ a < 2 ^ (a + b) := Nat.pow_lt_pow_right (by omega) (by omega)
  have pble : 2 ^ (b - 1) ≤ 2 ^ (a + b) := Nat.pow_le_pow_right (by omega) (by omega)
  have eA : (2 ^ b - 1) * 2 ^ a = 2 ^ (a + b) - 2 ^ a := by
    rw [Nat.sub_mul, one_mul, ← pow_add]
    congr 2
    omega
  have hylt : (2 ^ b - 1) * 2 ^ a < 2 ^ (a + b + 1) := by rw [eA]; omega
  have hsub1 : w - 1 = 2 ^ (a + b + 1) * H + ((2 ^ b - 1) * 2 ^ a - 1) := by
    rw [hw, eA]
    omega
  have hinner : ((2 ^ b - 1) * 2 ^ a) ||| ((2 ^ b - 1) * 2 ^ a - 1) = 2 ^ (a + b) - 1 := by
    have e1 : (2 ^ b - 1) * 2 ^ a = 2 ^ a * (2 ^ b - 1) + 0 := by ring
    have e2h : 2 ^ a * (2 ^ b - 2) + 2 ^ a * 2 = 2 ^ a * 2 ^ b := by
      rw [← Nat.mul_add]
      congr 1
      omega
    have e2hh : 2 ^ a * 2 ^ b = 2 ^ (a + b) := by rw [← pow_add]
    have e2 : (2 ^ b - 1) * 2 ^ a - 1 = 2 ^ a * (2 ^ b - 2) + (2 ^ a - 1) := by
      rw [eA]
      omega
    rw [e2, e1, lor_mul_pow_add a _ _ _ _ (by omega) (by omega)]
    rw [Nat.zero_or, two_pow_sub_one_lor b (2 ^ b - 2) (by omega)]
    have e3h : 2 ^ a * (2 ^ b - 1) + 2 ^ a * 1 = 2 ^ a * 2 ^ b := by
      rw [← Nat.mul_add]
      congr 1
      omega
    omega
  have hlor : w ||| (w - 1) = 2 ^ (a + b + 1) * H + (2 ^ (a + b) - 1) := by
    rw [hw, hsub1]
    rw [show (2 ^ (a + b + 1) * H + (2 ^ b - 1) * 2 ^ a) = (2 ^ (a + b + 1) * H + (2 ^ b - 1) * 2 ^ a) from rfl]
    rw [lor_mul_pow_add (a + b + 1) _ _ _ _ hylt (by omega)]
    rw [hinner]
    congr 2
    simp
  have hm : 2 ^ (a + b) * (2 * H + 1) = 2 ^ (a + b + 1) * H + 2 ^ (a + b) := by
    rw [Nat.mul_add, Nat.mul_one, pab1]
    ring_nf
  have hT : (w ||| (w - 1)) + 1 = 2 ^ (a + b) * (2 * H + 1) := by
    rw [hlor]
    omega
  have hlowt : 2 ^ (a + b) * (2 * H + 1) - (2 ^ (a + b) * (2 * H + 1) &&& (2 ^ (a + b) * (2 * H + 1) - 1))
      = 2 ^ (a + b) := by
    rw [land_pred_odd_mul_pow (a + b) H]
    have e : 2 ^ (a + b) * (2 * H + 1) = 2 ^ (a + b) * (2 * H) + 2 ^ (a + b) * 1 := by
      rw [← Nat.mul_add]
    omega
  have h2D : 2 * (2 ^ b * H + 2 ^ (b - 1) - 1) + 1 = 2 ^ (b + 1) * H + (2 ^ b - 1) := by
    have e2 : 2 ^ (b + 1) * H = 2 * (2 ^ b * H) := by rw [pow_succ]; ring
    omega
  have hodd : w = 2 ^ a * (2 * (2 ^ b * H + 2 ^ (b - 1) - 1) + 1) := by
    rw [h2D, hw, Nat.mul_add]
    have e1 : 2 ^ a * (2 ^ (b + 1) * H) = 2 ^ (a + b + 1) * H := by
      rw [← Nat.mul_assoc, ← pow_add]
      congr 2
    have e2 : 2 ^ a * (2 ^ b - 1) = (2 ^ b - 1) * 2 ^ a := by ring
    omega
  have hloww : w - (w &&& (w - 1)) = 2 ^ a := by
    rw [hodd, land_pred_odd_mul_pow a]
    have e : 2 ^ a * (2 * (2 ^ b * H + 2 ^ (b - 1) - 1) + 1)
        = 2 ^ a * (2 * (2 ^ b * H + 2 ^ (b - 1) - 1)) + 2 ^ a * 1 := by
      rw [← Nat.mul_add]
    omega
  have hdivq : 2 ^ (a + b) / 2 ^ a = 2 ^ b := by
    rw [pow_add, Nat.mul_div_cancel_left _ (by positivity)]
  have hshift : (2 ^ b) >>> 1 = 2 ^ (b - 1) := by
    rw [Nat.shiftRight_eq_div_pow, pow_one, pb1]
    omega
  have hfin : 2 ^ (a + b) * (2 * H + 1) ||| (2 ^ (b - 1) - 1)
      = 2 ^ (a + b + 1) * H + 2 ^ (a + b) + (2 ^ (b - 1) - 1) := by
    have := lor_mul_pow_add (a + b) (2 * H + 1) 0 0 (2 ^ (b - 1) - 1) (by omega) (by omega)
    simp only [Nat.add_zero, Nat.mul_zero, Nat.zero_add, Nat.or_zero, Nat.zero_or] at this
    rw [this]
    omega
  simp only [nextWordN]
  rw [hT, hlowt, hloww, hdivq, hshift, hfin]

/-- `popCount` of a word in trailing-block form. -/
theorem popCount_decomp (H a b : Nat) (hb : 1 ≤ b) :
    popCount (2 ^ (a + b + 1) * H + (2 ^ b - 1) * 2 ^ a) = popCount H + b := by
  have hylt : (2 ^ b - 1) * 2 ^ a < 2 ^ (a + b + 1) := by
    have p1 : (1:Nat) ≤ 2 ^ a := Nat.one_le_two_pow
    have pA_lt : 2 ^ a < 2 ^ (a + b) := Nat.pow_lt_pow_right (by omega) (by omega)
    have pab1 : 2 ^ (a + b + 1) = 2 * 2 ^ (a + b) := by rw [pow_succ]; ring
    have eA : (2 ^ b - 1) * 2 ^ a = 2 ^ (a + b) - 2 ^ a := by
      rw [Nat.sub_mul, one_mul, ← pow_add]
      congr 2
      omega
    omega
  rw [popCount_split _ _ _ hylt]
  have e1 : (2 ^ b - 1) * 2 ^ a = 2 ^ a * (2 ^ b - 1) + 0 := by ring
  rw [e1, popCount_split a _ _ (Nat.one_le_two_pow), popCount_zero, popCount_two_pow_sub_one]
  omega

/-- `popCount` of the value produced by `nextWordN` on a word in
trailing-block form. -/
theorem popCount_next_decomp (H a b : Nat) (hb : 1 ≤ b) :
    popCount (2 ^ (a + b + 1) * H + 2 ^ (a + b) + (2 ^ (b - 1) - 1)) = popCount H + b := by
  have p4 : (1:Nat) ≤ 2 ^ (b - 1) := Nat.one_le_two_pow
  have pble : 2 ^ (b - 1) ≤ 2 ^ (a + b) := Nat.pow_le_pow_right (by omega) (by omega)
  have e : 2 ^ (a + b + 1) * H + 2 ^ (a + b) + (2 ^ (b - 1) - 1)
      = 2 ^ (a + b + 1) * H + (2 ^ (a + b) + (2 ^ (b - 1) - 1)) := by omega
  have hlow : 2 ^ (a + b) + (2 ^ (b - 1) - 1) < 2 ^ (a + b + 1) := by
    have pab1 : 2 ^ (a + b + 1) = 2 * 2 ^ (a + b) := by rw [pow_succ]; ring
    omega
  rw [e, popCount_split _ _ _ hlow]
  have e2 : 2 ^ (a + b) + (2 ^ (b - 1) - 1) = 2 ^ (a + b) * 1 + (2 ^ (b - 1) - 1) := by omega
  rw [e2, popCount_split (a + b) 1 _ (by omega), popCount_one, popCount_two_pow_sub_one]
  omega

/-- No integer strictly between a word and its `nextWordN` successor has
the same number of set bits. -/
theorem nextWordN_min_decomp (H a b n : Nat) (hb : 1 ≤ b)
    (h1 : 2 ^ (a + b + 1) * H + (2 ^ b - 1) * 2 ^ a < n)
    (h2 : n < 2 ^ (a + b + 1) * H + 2 ^ (a + b) + (2 ^ (b - 1) - 1)) :
    popCount n ≠ popCount H + b := by
  have p1 : (1:Nat) ≤ 2 ^ a := Nat.one_le_two_pow
  have p4 : (1:Nat) ≤ 2 ^ (b - 1) := Nat.one_le_two_pow
  have pA_lt : 2 ^ a < 2 ^ (a + b) := Nat.pow_lt_pow_right (by omega) (by omega)
  have pble : 2 ^ (b - 1) ≤ 2 ^ (a + b) := Nat.pow_le_pow_right (by omega) (by omega)
  have pab1 : 2 ^ (a + b + 1) = 2 * 2 ^ (a + b) := by rw [pow_succ]; ring
  have eA : (2 ^ b - 1) * 2 ^ a = 2 ^ (a + b) - 2 ^ a := by
    rw [Nat.sub_mul, one_mul, ← pow_add]
    congr 2
    omega
  -- the high part of n is exactly H
  have hmdef : n = 2 ^ (a + b + 1) * H + (n - 2 ^ (a + b + 1) * H) := by omega
  set m := n - 2 ^ (a + b + 1) * H with hm
  have hmlt : m < 2 ^ (a + b + 1) := by omega
  have hmgt : 2 ^ (a + b) - 2 ^ a < m := by omega
  have hmup : m < 2 ^ (a + b) + (2 ^ (b - 1) - 1) := by omega
  rw [hmdef, popCount_split _ _ _ hmlt]
  rcases Nat.lt_or_ge m (2 ^ (a + b)) with hcase | hcase
  · -- m = 2^a * (2^b - 1) + lo with 1 ≤ lo < 2^a
    have hlodef : m = 2 ^ a * (2 ^ b - 1) + (m - (2 ^ (a + b) - 2 ^ a)) := by
      have e1 : 2 ^ a * (2 ^ b - 1) = 2 ^ (a + b) - 2 ^ a := by
        rw [← eA]; ring
      omega
    set lo := m - (2 ^ (a + b) - 2 ^ a) with hlo
    have hlopos : 0 < lo := by omega
    have hlolt : lo < 2 ^ a := by omega
    rw [hlodef, popCount_split a _ _ hlolt, popCount_two_pow_sub_one]
    have := popCount_pos_of_pos hlopos
    omega
  · -- m = 2^(a+b) * 1 + s with s < 2^(b-1) - 1
    have hsd : m = 2 ^ (a + b) * 1 + (m - 2 ^ (a + b)) := by omega
    set s := m - 2 ^ (a + b) with hs
    have hslt : s < 2 ^ (b - 1) - 1 := by omega
    rw [hsd, popCount_split (a + b) 1 _ (by omega), popCount_one]
    obtain ⟨hle, heq⟩ := popCount_lt_two_pow (b - 1) s (by omega)
    have hne : s ≠ 2 ^ (b - 1) - 1 := by omega
    have : popCount s ≠ b - 1 := fun hc => hne (heq hc)
    omega

/-- Every positive number has a trailing-block decomposition: high bits,
then a zero, then `b ≥ 1` ones, then `a` zeros. -/
theorem exists_trailing_decomp (w : Nat) (hw : 0 < w) :
    ∃ H a b, 1 ≤ b ∧ w = 2 ^ (a + b + 1) * H + (2 ^ b - 1) * 2 ^ a := by
  induction w using Nat.strong_induction_on with
  | _ w ih =>
    rcases Nat.even_or_odd w with ⟨m, hmw⟩ | ⟨m, hmw⟩
    · -- even case: w = 2 * m with m > 0
      have hmpos : 0 < m := by omega
      obtain ⟨H, a, b, hb, hdec⟩ := ih m (by omega) hmpos
      refine ⟨H, a + 1, b, hb, ?_⟩
      have e1 : 2 ^ (a + 1 + b + 1) = 2 * 2 ^ (a + b + 1) := by
        rw [show a + 1 + b + 1 = (a + b + 1) + 1 by omega, pow_succ]
        ring
      have e2 : 2 ^ (a + 1) = 2 * 2 ^ a := by rw [pow_succ]; ring
      have e3 : 2 ^ (a + 1 + b + 1) * H = 2 * (2 ^ (a + b + 1) * H) := by rw [e1]; ring
      have e4 : (2 ^ b - 1) * 2 ^ (a + 1) = 2 * ((2 ^ b - 1) * 2 ^ a) := by rw [e2]; ring
      omega
    · -- odd case: w = 2 * m + 1
      rcases Nat.even_or_odd m with ⟨m2, hm2⟩ | ⟨m2, hm2⟩
      · -- m even: trailing block is a single 1, a = 0
        refine ⟨m2, 0, 1, by omega, ?_⟩
        norm_num
        omega
      · -- m odd: extend the trailing block of m by one 1
        have hmpos : 0 < m := by omega
        obtain ⟨H, a, b, hb, hdec⟩ := ih m (by omega) hmpos
        have ha0 : a = 0 := by
          by_contra hne
          have e1 : 2 ^ (a + b + 1) * H = 2 * (2 ^ (a + b) * H) := by
            rw [pow_succ']
            ring
          have e2 : 2 ^ a = 2 * 2 ^ (a - 1) := by
            rw [← pow_succ']
            congr 1
            omega
          have e3 : (2 ^ b - 1) * 2 ^ a = 2 * ((2 ^ b - 1) * 2 ^ (a - 1)) := by
            rw [e2]; ring
          omega
        subst ha0
        refine ⟨H, 0, b + 1, by omega, ?_⟩
        have p2 : (1:Nat) ≤ 2 ^ b := Nat.one_le_two_pow
        have e1 : 2 ^ (0 + (b + 1) + 1) = 2 * 2 ^ (0 + b + 1) := by
          rw [show 0 + (b + 1) + 1 = (0 + b + 1) + 1 by omega, pow_succ]
          ring
        have e2 : 2 ^ (0 + (b + 1) + 1) * H = 2 * (2 ^ (0 + b + 1) * H) := by rw [e1]; ring
        have e3 : (2 ^ (b + 1) - 1) * 2 ^ 0 = 2 ^ (b + 1) - 1 := by ring_nf
        have e4 : 2 ^ (b + 1) = 2 * 2 ^ b := by rw [pow_succ]; ring
        have e5 : (2 ^ b - 1) * 2 ^ 0 = 2 ^ b - 1 := by ring_nf
        omega

/-- Full correctness of one generator step on positive words: the result
is larger, has the same number of set bits, and nothing in between does. -/
theorem nextWordN_spec (w : Nat) (hw : 0 < w) :
    w < nextWordN w ∧ popCount (nextWordN w) = popCount w ∧
      ∀ n : Nat, w < n → n < nextWordN w → popCount n ≠ popCount w := by
  obtain ⟨H, a, b, hb, hdec⟩ := exists_trailing_decomp w hw
  have p1 : (1:Nat) ≤ 2 ^ a := Nat.one_le_two_pow
  have p4 : (1:Nat) ≤ 2 ^ (b - 1) := Nat.one_le_two_pow
  have pA_lt : 2 ^ a < 2 ^ (a + b) := Nat.pow_lt_pow_right (by omega) (by omega)
  have eA : (2 ^ b - 1) * 2 ^ a = 2 ^ (a + b) - 2 ^ a := by
    rw [Nat.sub_mul, one_mul, ← pow_add]
    congr 2
    omega
  rw [hdec, nextWordN_eval H a b hb, popCount_decomp H a b hb, popCount_next_decomp H a b hb]
  refine ⟨by omega, rfl, ?_⟩
  intro n h1 h2
  exact nextWordN_min_decomp H a b n hb h1 h2

theorem int_lor_coe (a b : Nat) : ((a : Int) ||| (b : Int)) = ((a ||| b : Nat) : Int) := rfl

theorem int_neg_coe_succ (k : Nat) : -((k + 1 : Nat) : Int) = Int.negSucc k := rfl

theorem int_land_coe_negSucc (a k : Nat) :
    ((a : Int) &&& Int.negSucc k) = ((Nat.ldiff a k : Nat) : Int) := rfl

theorem int_fdiv_coe (a b : Nat) : ((a : Int).fdiv (b : Int)) = ((a / b : Nat) : Int) := by
  cases a with
  | zero => simp [Nat.zero_div, Int.fdiv]
  | succ n => rfl

theorem int_shiftRight_coe (c : Nat) : ((c : Int) >>> (1 : Int)) = ((c >>> 1 : Nat) : Int) := rfl

/-- `x & -x` over `Int` is the lowest set bit for positive `x`. -/
theorem int_land_neg_self (x : Nat) (hx : 0 < x) :
    ((x : Int) &&& (-(x : Int))) = ((Nat.ldiff x (x - 1) : Nat) : Int) := by
  have hx1 : x = (x - 1) + 1 := by omega
  rw [hx1]
  rw [int_neg_coe_succ, int_land_coe_negSucc]
  congr 2

/-- The literal `Int` embedding of the Python generator step agrees with
the `Nat` embedding on every positive word. -/
theorem next_word_agrees_on_nat (w : Nat) (hw : 0 < w) :
    next_word (w : Int) = ((nextWordN w : Nat) : Int) := by
  obtain ⟨H, a, b, hb, hdec⟩ := exists_trailing_decomp w hw
  have p1 : (1:Nat) ≤ 2 ^ a := Nat.one_le_two_pow
  have p2 : (1:Nat) ≤ 2 ^ b := Nat.one_le_two_pow
  have p2b : (2:Nat) ≤ 2 ^ b := by
    calc (2:Nat) = 2 ^ 1 := by norm_num
    _ ≤ 2 ^ b := Nat.pow_le_pow_right (by omega) hb
  have p3 : (1:Nat) ≤ 2 ^ (a + b) := Nat.one_le_two_pow
  have p4 : (1:Nat) ≤ 2 ^ (b - 1) := Nat.one_le_two_pow
  have pab1 : 2 ^ (a + b + 1) = 2 * 2 ^ (a + b) := by rw [pow_succ]; ring
  have pb1 : 2 ^ b = 2 * 2 ^ (b - 1) := by
    rw [← pow_succ']
    congr 1
    omega
  have pA_lt : 2 ^ a < 2 ^ (a + b) := Nat.pow_lt_pow_right (by omega) (by omega)
  have pble : 2 ^ (b - 1) ≤ 2 ^ (a + b) := Nat.pow_le_pow_right (by omega) (by omega)
  have eA : (2 ^ b - 1) * 2 ^ a = 2 ^ (a + b) - 2 ^ a := by
    rw [Nat.sub_mul, one_mul, ← pow_add]
    congr 2
    omega
  have hylt : (2 ^ b - 1) * 2 ^ a < 2 ^ (a + b + 1) := by rw [eA]; omega
  have hsub1 : w - 1 = 2 ^ (a + b + 1) * H + ((2 ^ b - 1) * 2 ^ a - 1) := by
    rw [hdec, eA]
    omega
  have hinner : ((2 ^ b - 1) * 2 ^ a) ||| ((2 ^ b - 1) * 2 ^ a - 1) = 2 ^ (a + b) - 1 := by
    have e1 : (2 ^ b - 1) * 2 ^ a = 2 ^ a * (2 ^ b - 1) + 0 := by ring
    have e2h : 2 ^ a * (2 ^ b - 2) + 2 ^ a * 2 = 2 ^ a * 2 ^ b := by
      rw [← Nat.mul_add]
      congr 1
      omega
    have e2hh : 2 ^ a * 2 ^ b = 2 ^ (a + b) := by rw [← pow_add]
    have e2 : (2 ^ b - 1) * 2 ^ a - 1 = 2 ^ a * (2 ^ b - 2) + (2 ^ a - 1) := by
      rw [eA]
      omega
    rw [e2, e1, lor_mul_pow_add a _ _ _ _ (by omega) (by omega)]
    rw [Nat.zero_or, two_pow_sub_one_lor b (2 ^ b - 2) (by omega)]
    have e3h : 2 ^ a * (2 ^ b - 1) + 2 ^ a * 1 = 2 ^ a * 2 ^ b := by
      rw [← Nat.mul_add]
      congr 1
      omega
    omega
  have hlor : w ||| (w - 1) = 2 ^ (a + b + 1) * H + (2 ^ (a + b) - 1) := by
    rw [hsub1]
    nth_rewrite 1 [hdec]
    rw [lor_mul_pow_add (a + b + 1) _ _ _ _ hylt (by omega)]
    rw [hinner]
    congr 2
    simp
  have hm : 2 ^ (a + b) * (2 * H + 1) = 2 ^ (a + b + 1) * H + 2 ^ (a + b) := by
    rw [Nat.mul_add, Nat.mul_one, pab1]
    ring_nf
  have hT : (w ||| (w - 1)) + 1 = 2 ^ (a + b) * (2 * H + 1) := by
    rw [hlor]
    omega
  have hTpos : 0 < (w ||| (w - 1)) + 1 := by omega
  have hldT : Nat.ldiff ((w ||| (w - 1)) + 1) ((w ||| (w - 1)) + 1 - 1) = 2 ^ (a + b) := by
    rw [hT, ldiff_pred_odd_mul_pow (a + b) H]
  have h2D : 2 * (2 ^ b * H + 2 ^ (b - 1) - 1) + 1 = 2 ^ (b + 1) * H + (2 ^ b - 1) := by
    have e2 : 2 ^ (b + 1) * H = 2 * (2 ^ b * H) := by rw [pow_succ]; ring
    omega
  have hodd : w = 2 ^ a * (2 * (2 ^ b * H + 2 ^ (b - 1) - 1) + 1) := by
    rw [h2D, hdec, Nat.mul_add]
    have e1 : 2 ^ a * (2 ^ (b + 1) * H) = 2 ^ (a + b + 1) * H := by
      rw [← Nat.mul_assoc, ← pow_add]
      congr 2
    have e2 : 2 ^ a * (2 ^ b - 1) = (2 ^ b - 1) * 2 ^ a := by ring
    omega
  have hldW : Nat.ldiff w (w - 1) = 2 ^ a := by
    rw [hodd, ldiff_pred_odd_mul_pow a]
  have hdivq : 2 ^ (a + b) / 2 ^ a = 2 ^ b := by
    rw [pow_add, Nat.mul_div_cancel_left _ (by positivity)]
  have hshift : (2 ^ b) >>> 1 = 2 ^ (b - 1) := by
    rw [Nat.shiftRight_eq_div_pow, pow_one, pb1]
    omega
  have hfin : 2 ^ (a + b) * (2 * H + 1) ||| (2 ^ (b - 1) - 1)
      = 2 ^ (a + b + 1) * H + 2 ^ (a + b) + (2 ^ (b - 1) - 1) := by
    have := lor_mul_pow_add (a + b) (2 * H + 1) 0 0 (2 ^ (b - 1) - 1) (by omega) (by omega)
    simp only [Nat.add_zero, Nat.mul_zero, Nat.zero_add, Nat.or_zero, Nat.zero_or] at this
    rw [this]
    omega
  -- now evaluate the Int expression
  simp only [next_word]
  have s1 : (w : Int) - 1 = ((w - 1 : Nat) : Int) := by omega
  rw [s1, int_lor_coe]
  have s2 : (((w ||| (w - 1) : Nat) : Int) + 1) = (((w ||| (w - 1)) + 1 : Nat) : Int) := by
    push_cast
    ring
  rw [s2]
  rw [int_land_neg_self _ hTpos, int_land_neg_self _ hw]
  rw [int_fdiv_coe, int_shiftRight_coe]
  rw [hldT, hldW, hdivq, hshift]
  have s3 : ((2 ^ (b - 1) : Nat) : Int) - 1 = ((2 ^ (b - 1) - 1 : Nat) : Int) := by
    push_cast [p4]
    ring
  rw [s3, int_lor_coe]
  rw [hT, hfin]
  rw [hdec, nextWordN_eval H a b hb]

/-- Combined invariant of the yielded sequence: positivity, popcount
preservation, strict growth, and no skipped value of equal popcount. -/
theorem nextWordSeq_props (seed : Nat) (hs : 0 < seed) :
    ∀ i : Nat,
      0 < nextWordSeq seed i ∧ popCount (nextWordSeq seed i) = popCount seed ∧
      genPred seed i < nextWordSeq seed i ∧
      ∀ n : Nat, genPred seed i < n → n < nextWordSeq seed i → popCount n ≠ popCount seed := by
  intro i
  induction i with
  | zero =>
    obtain ⟨hlt, hpc, hmin⟩ := nextWordN_spec seed hs
    exact ⟨by show 0 < nextWordN seed; omega, hpc, hlt, hmin⟩
  | succ i ih =>
    obtain ⟨hpos, hpc, hlt, hmin⟩ := ih
    obtain ⟨hlt2, hpc2, hmin2⟩ := nextWordN_spec (nextWordSeq seed i) hpos
    refine ⟨by show 0 < nextWordN (nextWordSeq seed i); omega, ?_, ?_, ?_⟩
    · show popCount (nextWordN (nextWordSeq seed i)) = popCount seed
      rw [hpc2, hpc]
    · show nextWordSeq seed i < nextWordN (nextWordSeq seed i)
      exact hlt2
    · intro n h1 h2
      have := hmin2 n h1 h2
      rw [hpc] at this
      exact this

/-- Every yield strictly exceeds the seed (so the generator never
revisits the seed), and hence every member of a generated prefix does. -/
theorem genFrom_gt_seed (n : Nat) :
    ∀ w : Nat, 0 < w → ∀ x ∈ genFrom w n, w < x := by
  induction n with
  | zero => intro w _ x hx; simp [genFrom] at hx
  | succ n ih =>
    intro w hw x hx
    obtain ⟨hlt, -, -⟩ := nextWordN_spec w hw
    simp only [genFrom, List.mem_cons] at hx
    rcases hx with rfl | hx
    · exact hlt
    · exact lt_trans hlt (ih (nextWordN w) (by omega) x hx)

/-! ### Structural lemmas about assignment traces -/
theorem assignRun_length {α : Type} (s : Nat) (l : List α) :
    (assignRun s l).length = l.length := by
  induction l generalizing s with
  | nil => rfl
  | cons a l ih => simp [assignRun, ih]

theorem assignRun_rank_mem {α : Type} (s : Nat) (l : List α) :
    ∀ e ∈ assignRun s l, s ≤ e.2 ∧ e.2 < s + l.length := by
  induction l generalizing s with
  | nil => intro e he; simp [assignRun] at he
  | cons a l ih =>
    intro e he
    simp only [assignRun, List.mem_cons] at he
    rcases he with rfl | he
    · show s ≤ s ∧ s < s + (l.length + 1)
      omega
    · have := ih (s + 1) e he
      show s ≤ e.2 ∧ e.2 < s + (l.length + 1)
      omega

theorem lenEq_iff {α : Type} : ∀ (l : List α) (n : Nat), lenEq l n = true ↔ l.length = n := by
  intro l
  induction l with
  | nil => intro n; cases n <;> simp [lenEq]
  | cons a l ih =>
    intro n
    cases n with
    | zero => simp [lenEq]
    | succ n => simp [lenEq, ih n]

theorem combinations_length {α : Type} : ∀ (k : Nat) (l : List α),
    (combinations k l).length = l.length.choose k := by
  intro k l
  induction l generalizing k with
  | nil => cases k <;> simp [combinations]
  | cons x xs ih =>
    cases k with
    | zero => simp [combinations]
    | succ k =>
      simp [combinations, ih k, ih (k + 1), Nat.choose_succ_succ, Nat.add_comm]

theorem lookupTrace_append (t1 t2 : List (Nat × Nat)) (k : Nat) :
    lookupTrace (t1 ++ t2) k =
      match lookupTrace t2 k with
      | some v => some v
      | none => lookupTrace t1 k := by
  unfold lookupTrace
  rw [List.reverse_append, List.find?_append]
  cases h : (t2.reverse.find? fun e => e.1 = k) <;> simp [Option.orElse, h]

theorem products_len {s n : Nat} {inp : List Nat} (h : lenEq (assignRun s inp) n = true) :
    inp.length = n := by
  have := (lenEq_iff _ _).mp h
  rwa [assignRun_length] at this

theorem trace_rank_bounds {s n : Nat} {inp : List Nat} (hlen : inp.length = n) :
    ∀ e ∈ assignRun s inp, s ≤ e.2 ∧ e.2 < s + n := by
  intro e he
  obtain ⟨h1, h2⟩ := assignRun_rank_mem s inp e he
  omega

theorem trace_rank_class {s n c : Nat} {inp : List Nat} (hlen : inp.length = n)
    (hc : ∀ r : Nat, s ≤ r → r < s + n → rank_class r = c) :
    ∀ e ∈ assignRun s inp, rank_class e.2 = c := by
  intro e he
  obtain ⟨h1, h2⟩ := trace_rank_bounds hlen e he
  exact hc e.2 h1 h2

theorem len_sf5 : sfProducts5.length = 10 := by
  have h : lenEq sfTrace5 10 = true := by decide
  exact products_len h

theorem len_flush5 : flushProducts5.length = 1277 := by
  have h : lenEq flushTrace5 1277 = true := by decide
  exact products_len h

theorem len_quads5 : quadsProducts.length = 156 := by
  have h : lenEq quadsTrace5 156 = true := by decide
  exact products_len h

theorem len_fullHouse5 : fullHouseProducts.length = 156 := by
  have h : lenEq fullHouseTrace5 156 = true := by decide
  exact products_len h

theorem len_trips5 : tripsProducts.length = 858 := by
  have h : lenEq tripsTrace5 858 = true := by decide
  exact products_len h

theorem len_twoPair5 : twoPairProducts.length = 858 := by
  have h : lenEq twoPairTrace5 858 = true := by decide
  exact products_len h

theorem len_pair5 : pairProducts.length = 2860 := by
  have h : lenEq pairTrace5 2860 = true := by decide
  exact products_len h

theorem rank_class_window :
    (∀ r : Nat, 1 ≤ r → r < 11 → rank_class r = 1) ∧
    (∀ r : Nat, 11 ≤ r → r < 167 → rank_class r = 2) ∧
    (∀ r : Nat, 167 ≤ r → r < 323 → rank_class r = 3) ∧
    (∀ r : Nat, 323 ≤ r → r < 1600 → rank_class r = 4) ∧
    (∀ r : Nat, 1600 ≤ r → r < 1610 → rank_class r = 5) ∧
    (∀ r : Nat, 1610 ≤ r → r < 2468 → rank_class r = 6) ∧
    (∀ r : Nat, 2468 ≤ r → r < 3326 → rank_class r = 7) ∧
    (∀ r : Nat, 3326 ≤ r → r < 6186 → rank_class r = 8) ∧
    (∀ r : Nat, 6186 ≤ r → r < 7463 → rank_class r = 9) := by
  refine ⟨?_, ?_, ?_, ?_, ?_, ?_, ?_, ?_, ?_⟩ <;>
    (intro r h1 h2 ;
     simp only [rank_class, MAX_STRAIGHT_FLUSH, MAX_FOUR_OF_A_KIND, MAX_FULL_HOUSE, MAX_FLUSH,
       MAX_STRAIGHT, MAX_THREE_OF_A_KIND, MAX_TWO_PAIR, MAX_PAIR] ;
     split_ifs <;> omega)

/-- C1: For every valid 5-card hand, the rank assigned by the five-card
LookupTable lies in [1, 7462] (every assignment made by `build` writes a
rank in that interval); the royal-flush prime product
(`product_from_rankbits 7936`) maps to rank 1 in the flush table; the
7-5-4-3-2 unsuited prime product (`product_from_rankbits 47`) maps to
rank 7462 in the unsuited table; and reconstructing the category from the
rank with the boundary constants gives each pass's actual hand category. -/
theorem fiveCard_rank_range_and_classes :
    (∀ e ∈ flushTableTrace, 1 ≤ e.2 ∧ e.2 ≤ MAX_HIGH_CARD) ∧
    (∀ e ∈ unsuitedTableTrace, 1 ≤ e.2 ∧ e.2 ≤ MAX_HIGH_CARD) ∧
    flushTable5 (product_from_rankbits 7936) = some 1 ∧
    unsuitedTable5 (product_from_rankbits 47) = some 7462 ∧
    (∀ e ∈ sfTrace5, rank_class e.2 = 1) ∧
    (∀ e ∈ quadsTrace5, rank_class e.2 = 2) ∧
    (∀ e ∈ fullHouseTrace5, rank_class e.2 = 3) ∧
    (∀ e ∈ flushTrace5, rank_class e.2 = 4) ∧
    (∀ e ∈ straightTrace5, rank_class e.2 = 5) ∧
    (∀ e ∈ tripsTrace5, rank_class e.2 = 6) ∧
    (∀ e ∈ twoPairTrace5, rank_class e.2 = 7) ∧
    (∀ e ∈ pairTrace5, rank_class e.2 = 8) ∧
    (∀ e ∈ highcardTrace5, rank_class e.2 = 9) := by
  obtain ⟨w1, w2, w3, w4, w5, w6, w7, w8, w9⟩ := rank_class_window
  have bsf := trace_rank_bounds (s := 1) len_sf5
  have bq := trace_rank_bounds (s := MAX_STRAIGHT_FLUSH + 1) len_quads5
  have bfh := trace_rank_bounds (s := MAX_FOUR_OF_A_KIND + 1) len_fullHouse5
  have bfl := trace_rank_bounds (s := MAX_FULL_HOUSE + 1) len_flush5
  have bst := trace_rank_bounds (s := MAX_FLUSH + 1) len_sf5
  have btr := trace_rank_bounds (s := MAX_STRAIGHT + 1) len_trips5
  have btp := trace_rank_bounds (s := MAX_THREE_OF_A_KIND + 1) len_twoPair5
  have bpr := trace_rank_bounds (s := MAX_TWO_PAIR + 1) len_pair5
  have bhc := trace_rank_bounds (s := MAX_PAIR + 1) len_flush5
  refine ⟨?_, ?_, ?_, ?_, ?_, ?_, ?_, ?_, ?_, ?_, ?_, ?_, ?_⟩
  · intro e he
    rcases List.mem_append.mp he with h | h
    · have := bsf e h
      simp only [MAX_HIGH_CARD]
      omega
    · have := bfl e h
      simp only [MAX_FULL_HOUSE, MAX_HIGH_CARD] at *
      omega
  · intro e he
    rcases List.mem_append.mp he with he | h7
    rotate_left
    · have := bpr e h7
      simp only [MAX_TWO_PAIR, MAX_HIGH_CARD] at *
      omega
    rcases List.mem_append.mp he with he | h6
    rotate_left
    · have := btp e h6
      simp only [MAX_THREE_OF_A_KIND, MAX_HIGH_CARD] at *
      omega
    rcases List.mem_append.mp he with he | h5
    rotate_left
    · have := btr e h5
      simp only [MAX_STRAIGHT, MAX_HIGH_CARD] at *
      omega
    rcases List.mem_append.mp he with he | h4
    rotate_left
    · have := bfh e h4
      simp only [MAX_FOUR_OF_A_KIND, MAX_HIGH_CARD] at *
      omega
    rcases List.mem_append.mp he with he | h3
    rotate_left
    · have := bq e h3
      simp only [MAX_STRAIGHT_FLUSH, MAX_HIGH_CARD] at *
      omega
    rcases List.mem_append.mp he with h1 | h2
    · have := bst e h1
      simp only [MAX_FLUSH, MAX_HIGH_CARD] at *
      omega
    · have := bhc e h2
      simp only [MAX_PAIR, MAX_HIGH_CARD] at *
      omega
  · show lookupTrace (sfTrace5 ++ flushTrace5) (product_from_rankbits 7936) = some 1
    rw [lookupTrace_append]
    have h1 : lookupTrace flushTrace5 (product_from_rankbits 7936) = none := by decide
    have h2 : lookupTrace sfTrace5 (product_from_rankbits 7936) = some 1 := by decide
    rw [h1, h2]
  · show lookupTrace (straightTrace5 ++ highcardTrace5 ++ quadsTrace5 ++ fullHouseTrace5 ++
      tripsTrace5 ++ twoPairTrace5 ++ pairTrace5) (product_from_rankbits 47) = some 7462
    rw [lookupTrace_append]
    have h1 : lookupTrace pairTrace5 (product_from_rankbits 47) = none := by decide
    rw [h1, lookupTrace_append]
    have h2 : lookupTrace twoPairTrace5 (product_from_rankbits 47) = none := by decide
    rw [h2, lookupTrace_append]
    have h3 : lookupTrace tripsTrace5 (product_from_rankbits 47) = none := by decide
    rw [h3, lookupTrace_append]
    have h4 : lookupTrace fullHouseTrace5 (product_from_rankbits 47) = none := by decide
    rw [h4, lookupTrace_append]
    have h5 : lookupTrace quadsTrace5 (product_from_rankbits 47) = none := by decide
    rw [h5, lookupTrace_append]
    have h6 : lookupTrace highcardTrace5 (product_from_rankbits 47) = some 7462 := by decide
    rw [h6]
  · exact trace_rank_class len_sf5 (fun r hr1 hr2 => w1 r hr1 (by simpa using hr2))
  · exact trace_rank_class len_quads5 (fun r hr1 hr2 => w2 r hr1 (by simpa using hr2))
  · exact trace_rank_class len_fullHouse5 (fun r hr1 hr2 => w3 r hr1 (by simpa using hr2))
  · exact trace_rank_class len_flush5 (fun r hr1 hr2 => w4 r hr1 (by simpa using hr2))
  · exact trace_rank_class len_sf5 (fun r hr1 hr2 => w5 r hr1 (by simpa using hr2))
  · exact trace_rank_class len_trips5 (fun r hr1 hr2 => w6 r hr1 (by simpa using hr2))
  · exact trace_rank_class len_twoPair5 (fun r hr1 hr2 => w7 r hr1 (by simpa using hr2))
  · exact trace_rank_class len_pair5 (fun r hr1 hr2 => w8 r hr1 (by simpa using hr2))
  · exact trace_rank_class len_flush5 (fun r hr1 hr2 => w9 r hr1 (by simpa using hr2))

/-- Witness for C1: the royal-flush entry itself, as recorded by the
straight-flush pass, is in range and classifies as a straight flush. -/
theorem fiveCard_rank_range_witness :
    (1 ≤ (product_from_rankbits 7936, 1).2 ∧ (product_from_rankbits 7936, 1).2 ≤ MAX_HIGH_CARD) ∧
    rank_class (product_from_rankbits 7936, 1).2 = 1 :=
  ⟨fiveCard_rank_range_and_classes.1 (product_from_rankbits 7936, 1) (by decide),
   (fiveCard_rank_range_and_classes.2.2.2.2.1) (product_from_rankbits 7936, 1) (by decide)⟩

/-- C2: after `build`, each category pass wrote exactly its documented
number of entries (10 straight flushes, 156 quads, 156 full houses, 1277
flushes, 10 straights, 858 trips, 858 two-pair, 2860 pair, 1277 high
card), each pass's final rank counter (its start plus its entry count)
lands exactly on its boundary constant plus one — i.e. the last rank
assigned in each pass is exactly the category's MAX_* constant — and the
total number of assigned ranks across both tables is 7462. -/
theorem fiveCard_boundary_exactness :
    sfTrace5.length = 10 ∧ quadsTrace5.length = 156 ∧ fullHouseTrace5.length = 156 ∧
    flushTrace5.length = 1277 ∧ straightTrace5.length = 10 ∧ tripsTrace5.length = 858 ∧
    twoPairTrace5.length = 858 ∧ pairTrace5.length = 2860 ∧ highcardTrace5.length = 1277 ∧
    1 + sfTrace5.length = MAX_STRAIGHT_FLUSH + 1 ∧
    (MAX_STRAIGHT_FLUSH + 1) + quadsTrace5.length = MAX_FOUR_OF_A_KIND + 1 ∧
    (MAX_FOUR_OF_A_KIND + 1) + fullHouseTrace5.length = MAX_FULL_HOUSE + 1 ∧
    (MAX_FULL_HOUSE + 1) + flushTrace5.length = MAX_FLUSH + 1 ∧
    (MAX_FLUSH + 1) + straightTrace5.length = MAX_STRAIGHT + 1 ∧
    (MAX_STRAIGHT + 1) + tripsTrace5.length = MAX_THREE_OF_A_KIND + 1 ∧
    (MAX_THREE_OF_A_KIND + 1) + twoPairTrace5.length = MAX_TWO_PAIR + 1 ∧
    (MAX_TWO_PAIR + 1) + pairTrace5.length = MAX_PAIR + 1 ∧
    (MAX_PAIR + 1) + highcardTrace5.length = MAX_HIGH_CARD + 1 ∧
    flushTableTrace.length + unsuitedTableTrace.length = 7462 := by
  have l1 : sfTrace5.length = 10 := by rw [sfTrace5, assignRun_length, len_sf5]
  have l2 : quadsTrace5.length = 156 := by rw [quadsTrace5, assignRun_length, len_quads5]
  have l3 : fullHouseTrace5.length = 156 := by
    rw [fullHouseTrace5, assignRun_length, len_fullHouse5]
  have l4 : flushTrace5.length = 1277 := by rw [flushTrace5, assignRun_length, len_flush5]
  have l5 : straightTrace5.length = 10 := by rw [straightTrace5, assignRun_length, len_sf5]
  have l6 : tripsTrace5.length = 858 := by rw [tripsTrace5, assignRun_length, len_trips5]
  have l7 : twoPairTrace5.length = 858 := by rw [twoPairTrace5, assignRun_length, len_twoPair5]
  have l8 : pairTrace5.length = 2860 := by rw [pairTrace5, assignRun_length, len_pair5]
  have l9 : highcardTrace5.length = 1277 := by rw [highcardTrace5, assignRun_length, len_flush5]
  have ltot : flushTableTrace.length + unsuitedTableTrace.length = 7462 := by
    rw [flushTableTrace, unsuitedTableTrace]
    simp only [List.length_append]
    omega
  refine ⟨l1, l2, l3, l4, l5, l6, l7, l8, l9, ?_, ?_, ?_, ?_, ?_, ?_, ?_, ?_, ?_, ltot⟩ <;>
    simp only [l1, l2, l3, l4, l5, l6, l7, l8, l9, MAX_STRAIGHT_FLUSH, MAX_FOUR_OF_A_KIND,
      MAX_FULL_HOUSE, MAX_FLUSH, MAX_STRAIGHT, MAX_THREE_OF_A_KIND, MAX_TWO_PAIR, MAX_PAIR,
      MAX_HIGH_CARD]

/-- C3: within the four-of-a-kind pass, ranks are assigned in nested
descending order over (quad rank, kicker rank): whenever assignment `e1`
beats assignment `e2` under the standard tie-break (higher quad rank
first, then higher kicker), `e1` received the strictly lower (stronger)
rank; concretely, in the finished unsuited table quad Aces with King
kicker has rank 11, quad Aces with Queen kicker rank 12, and quad Kings
with Ace kicker rank 23, so 11 < 12 < 23. -/
theorem quads_nested_descending_order :
    (∀ e1 ∈ quadsAssignments, ∀ e2 ∈ quadsAssignments,
        (e2.1.1 < e1.1.1 ∨ (e1.1.1 = e2.1.1 ∧ e2.1.2 < e1.1.2)) → e1.2 < e2.2) ∧
    unsuitedTable5 (prime 12 ^ 4 * prime 11) = some 11 ∧
    unsuitedTable5 (prime 12 ^ 4 * prime 10) = some 12 ∧
    unsuitedTable5 (prime 11 ^ 4 * prime 12) = some 23 ∧
    (11 : Nat) < 12 ∧ (12 : Nat) < 23 := by
  have hlookup : ∀ p v : Nat, lookupTrace quadsTrace5 p = some v →
      lookupTrace pairTrace5 p = none → lookupTrace twoPairTrace5 p = none →
      lookupTrace tripsTrace5 p = none → lookupTrace fullHouseTrace5 p = none →
      unsuitedTable5 p = some v := by
    intro p v hq h7 h6 h5 h4
    show lookupTrace (straightTrace5 ++ highcardTrace5 ++ quadsTrace5 ++ fullHouseTrace5 ++
      tripsTrace5 ++ twoPairTrace5 ++ pairTrace5) p = some v
    rw [lookupTrace_append, h7, lookupTrace_append, h6, lookupTrace_append, h5,
      lookupTrace_append, h4, lookupTrace_append, hq]
  refine ⟨by decide, ?_, ?_, ?_, by omega, by omega⟩
  · exact hlookup _ _ (by decide) (by decide) (by decide) (by decide) (by decide)
  · exact hlookup _ _ (by decide) (by decide) (by decide) (by decide) (by decide)
  · exact hlookup _ _ (by decide) (by decide) (by decide) (by decide) (by decide)

/-- Witness for C3: quad Aces with King kicker (rank 11) beats quad Aces
with Queen kicker (rank 12). -/
theorem quads_nested_descending_order_witness :
    ((12, 11), 11).2 < ((12, 10), 12).2 :=
  quads_nested_descending_order.1 ((12, 11), 11) (by decide) ((12, 10), 12) (by decide)
    (Or.inr ⟨rfl, by decide⟩)

/-! ### Structural facts about the draw-table maps -/
theorem odSet_isList (m : OD) (k : Nat) (l : List Nat)
    (h : ∀ e ∈ m, e.2.isList = true) :
    ∀ e ∈ odSet m k (.list l), e.2.isList = true := by
  intro e he
  rw [odSet] at he
  by_cases ha : m.any (fun e => e.1 = k)
  · rw [if_pos ha] at he
    obtain ⟨e0, he0, rfl⟩ := List.mem_map.mp he
    by_cases hk : e0.1 = k
    · simp [hk, Val.isList]
    · simp only [hk, if_neg, ite_false]
      exact h e0 he0
  · rw [if_neg ha] at he
    rcases List.mem_append.mp he with h1 | h2
    · exact h e h1
    · simp only [List.mem_singleton] at h2
      subst h2
      rfl

theorem odAppendOrNew_isList (m : OD) (k r : Nat)
    (h : ∀ e ∈ m, e.2.isList = true) :
    ∀ e ∈ odAppendOrNew m k r, e.2.isList = true := by
  intro e he
  rw [odAppendOrNew] at he
  by_cases hc : truthy (odGet m k)
  · rw [if_pos hc] at he
    obtain ⟨e0, he0, rfl⟩ := List.mem_map.mp he
    have hl := h e0 he0
    by_cases hk : e0.1 = k
    · simp only [hk, if_pos rfl]
      cases hv : e0.2 with
      | list l => simp [bump, Val.isList]
      | int n => rw [hv] at hl; simp [Val.isList] at hl
    · simp only [hk, if_neg, ite_false]
      exact hl
  · rw [if_neg hc] at he
    exact odSet_isList m k [r] h e he

theorem runPass_isList (ps : List Nat) : ∀ (m : OD) (rank : Nat),
    (∀ e ∈ m, e.2.isList = true) → ∀ e ∈ runPass m rank ps, e.2.isList = true := by
  induction ps with
  | nil => intro m rank h e he; exact h e he
  | cons p ps ih =>
    intro m rank h e he
    exact ih _ _ (odAppendOrNew_isList m p rank h) e he

theorem runPassCo_isList (ps : List Nat) : ∀ (m : OD) (rank co : Nat),
    (∀ e ∈ m, e.2.isList = true) → ∀ e ∈ runPassCo m rank co ps, e.2.isList = true := by
  induction ps with
  | nil => intro m rank co h e he; exact h e he
  | cons p ps ih =>
    intro m rank co h e he
    rw [runPassCo] at he
    by_cases hco : (co == 9) = true
    · rw [if_pos hco] at he
      exact ih _ _ _ (odAppendOrNew_isList m p rank h) e he
    · rw [if_neg (by simpa using hco)] at he
      exact ih _ _ _ (odAppendOrNew_isList m p rank h) e he

theorem find_key_map (m : OD) (k : Nat) (g : Val → Val) :
    (m.map (fun e => if e.1 = k then (e.1, g e.2) else e)).find? (fun e => e.1 = k)
      = (m.find? (fun e => e.1 = k)).map (fun e => (e.1, g e.2)) := by
  induction m with
  | nil => rfl
  | cons e m ih =>
    by_cases hk : e.1 = k
    · simp [List.find?_cons, hk]
    · simp [List.find?_cons, hk, ih]

/-- The append contract: when a signature already maps to a non-empty
list, the re-encounter idiom appends the new rank to that list. -/
theorem odAppendOrNew_appends (m : OD) (k r : Nat) (l : List Nat)
    (h : odGet m k = some (.list l)) (hne : l ≠ []) :
    odGet (odAppendOrNew m k r) k = some (.list (l ++ [r])) := by
  have htr : truthy (odGet m k) = true := by
    rw [h]
    simpa [truthy] using hne
  rw [odAppendOrNew, if_pos htr]
  unfold odGet at h ⊢
  obtain ⟨ent, hent, hmap⟩ : ∃ ent, m.find? (fun e => e.1 = k) = some ent ∧ ent.2 = Val.list l := by
    cases hf : m.find? (fun e => e.1 = k) with
    | none => rw [hf] at h; simp at h
    | some ent =>
      rw [hf] at h
      simp at h
      exact ⟨ent, rfl, h⟩
  rw [find_key_map m k (bump r), hent]
  simp [hmap, bump]

theorem find_ne_key_map (m : OD) (k p : Nat) (hne : p ≠ k) (v : Val) :
    (m.map (fun e => if e.1 = k then (e.1, v) else e)).find? (fun e => e.1 = p)
      = m.find? (fun e => e.1 = p) := by
  induction m with
  | nil => rfl
  | cons e m ih =>
    simp only [List.map_cons]
    by_cases hp : e.1 = p
    · have hk : ¬ (e.1 = k) := by
        rw [hp]
        exact hne
      rw [if_neg hk, List.find?_cons_of_pos _ (by simpa using hp),
        List.find?_cons_of_pos _ (by simpa using hp)]
    · by_cases hk : e.1 = k
      · rw [if_pos hk, List.find?_cons_of_neg _ (by simpa using hp),
          List.find?_cons_of_neg _ (by simpa using hp), ih]
      · rw [if_neg hk, List.find?_cons_of_neg _ (by simpa using hp),
          List.find?_cons_of_neg _ (by simpa using hp), ih]

theorem odGet_odSet_self (m : OD) (k : Nat) (v : Val) : odGet (odSet m k v) k = some v := by
  rw [odSet]
  by_cases ha : (m.any fun e => e.1 = k) = true
  · rw [if_pos ha]
    rw [List.any_eq_true] at ha
    obtain ⟨x, hx, hpx⟩ := ha
    have hsome : (m.find? (fun e => e.1 = k)).isSome = true := by
      rw [List.find?_isSome]
      exact ⟨x, hx, hpx⟩
    obtain ⟨ent, hent⟩ := Option.isSome_iff_exists.mp hsome
    unfold odGet
    rw [find_key_map m k (fun _ => v), hent]
    rfl
  · rw [if_neg ha]
    unfold odGet
    rw [List.find?_append]
    have hnone : m.find? (fun e => e.1 = k) = none := by
      rw [List.find?_eq_none]
      intro x hx
      by_contra hc
      exact ha (List.any_eq_true.mpr ⟨x, hx, by simpa using hc⟩)
    rw [hnone]
    simp [List.find?]

theorem odGet_odSet_ne (m : OD) (k p : Nat) (v : Val) (hne : p ≠ k) :
    odGet (odSet m k v) p = odGet m p := by
  rw [odSet]
  by_cases ha : (m.any fun e => e.1 = k) = true
  · rw [if_pos ha]
    unfold odGet
    rw [find_ne_key_map m k p hne v]
  · rw [if_neg ha]
    unfold odGet
    rw [List.find?_append]
    have hkp : ¬ (k = p) := fun h => hne h.symm
    have h2 : [(k, v)].find? (fun e => e.1 = p) = none := by
      rw [List.find?_cons_of_neg _ (by simpa using hkp)]
      rfl
    cases hf : m.find? (fun e => e.1 = p) with
    | none => simp [hf, h2, Option.orElse]
    | some ent => simp [hf, Option.orElse]

theorem runPassInt_untouched (p : Nat) (ps : List Nat) : ∀ (m : OD) (r : Nat),
    ps.contains p = false → odGet (runPassInt m r ps) p = odGet m p := by
  induction ps with
  | nil => intro m r _; rfl
  | cons q ps ih =>
    intro m r hc
    simp only [List.contains_cons, Bool.or_eq_false_iff] at hc
    obtain ⟨hq, hps⟩ := hc
    rw [runPassInt, ih _ _ hps, odGet_odSet_ne]
    intro hpq
    rw [hpq] at hq
    simp at hq

theorem odGet_runPassInt_cons (m : OD) (r p : Nat) (ps : List Nat)
    (hp : ps.contains p = false) :
    odGet (runPassInt m r (p :: ps)) p = some (.int r) := by
  rw [runPassInt, runPassInt_untouched p ps _ _ hp, odGet_odSet_self]

/-- The strongest plain 3-card flush draw (pattern `0b1100010000000`,
product 28823) is stored in the 3-card flush map as the bare integer 349. -/
theorem flushMap3_head_int : odGet flushMap3 28823 = some (Val.int 349) := by
  have hhead : (flushes3.map product_from_rankbits).head? = some 28823 := by decide
  have htail : ((flushes3.map product_from_rankbits).tail).contains 28823 = false := by decide
  rw [flushMap3]
  cases hfl : flushes3.map product_from_rankbits with
  | nil => rw [hfl] at hhead; simp at hhead
  | cons a rest =>
    rw [hfl] at hhead htail
    simp only [List.head?_cons, Option.some.injEq] at hhead
    simp only [List.tail_cons] at htail
    subst hhead
    exact odGet_runPassInt_cons _ _ _ _ htail

/-- The strongest plain 4-card flush draw (pattern `0b1111000000000`,
product 1363783) is stored in the 4-card flush map as the bare integer 479. -/
theorem flushMap4_head_int : odGet flushMap4 1363783 = some (Val.int 479) := by
  have hhead : (flushes4.map product_from_rankbits).head? = some 1363783 := by decide
  have htail : ((flushes4.map product_from_rankbits).tail).contains 1363783 = false := by decide
  rw [flushMap4]
  cases hfl : flushes4.map product_from_rankbits with
  | nil => rw [hfl] at hhead; simp at hhead
  | cons a rest =>
    rw [hfl] at hhead htail
    simp only [List.head?_cons, Option.some.injEq] at hhead
    simp only [List.tail_cons] at htail
    subst hhead
    exact odGet_runPassInt_cons _ _ _ _ htail

/-- C5 counterexample: in the finished 3-card flush map the signature of
the strongest plain flush draw (pattern `0b1100010000000`, prime product
28823) is stored as the bare integer rank 349, not as a list, because the
plain-flush pass assigns `self.flush[product] = rank` (lookup.py line
361). -/
theorem threeCard_flush_value_not_a_list :
    odGet flushMap3 28823 = some (Val.int 349) ∧ (Val.int 349).isList = false := by
  exact ⟨flushMap3_head_int, rfl⟩

/-- C5 (amended): every value stored in the unsuited mappings of the
3-card and 4-card draw tables is a list, and whenever a signature whose
entry is a non-empty list is encountered again the new rank is appended
rather than overwriting; the flush mappings follow the same discipline in
their straight-flush passes, but their plain-flush passes store bare
integer ranks via direct assignment. -/
theorem drawTable_values_amended :
    (∀ e ∈ unsuitedMap3, e.2.isList = true) ∧
    (∀ e ∈ unsuitedMap4, e.2.isList = true) ∧
    (∀ (m : OD) (k r : Nat) (l : List Nat), odGet m k = some (.list l) → l ≠ [] →
        odGet (odAppendOrNew m k r) k = some (.list (l ++ [r]))) ∧
    odGet flushMap3 (product_from_rankbits 6272) = some (.int 349) ∧
    odGet flushMap4 (product_from_rankbits 7680) = some (.int 479) := by
  have e3 : product_from_rankbits 6272 = 28823 := by decide
  have e4 : product_from_rankbits 7680 = 1363783 := by decide
  refine ⟨?_, ?_, odAppendOrNew_appends, by rw [e3]; exact flushMap3_head_int,
    by rw [e4]; exact flushMap4_head_int⟩
  · exact runPass_isList _ _ _ (runPass_isList _ _ _ (runPass_isList _ _ _
      (runPass_isList _ _ _ (runPass_isList _ _ _ (runPassCo_isList _ _ _ _
        (by intro e he; simp at he))))))
  · exact runPass_isList _ _ _ (runPass_isList _ _ _ (runPass_isList _ _ _
      (runPass_isList _ _ _ (runPass_isList _ _ _ (runPassCo_isList _ _ _ _
        (by intro e he; simp at he))))))

/-- Witness for C5 (amended): appending to an existing one-element list
produces the two-element list. -/
theorem drawTable_values_amended_witness :
    odGet (odAppendOrNew [(5, Val.list [1])] 5 2) 5 = some (Val.list [1, 2]) :=
  drawTable_values_amended.2.2.1 [(5, Val.list [1])] 5 2 [1] (by decide) (by decide)

/-- C6 (code bug): the first loop of the 3-card two-pair pass forms its
keys as `PRIMES[i]**2 * PRIMES[k]` where `i` is the stale loop variable
left at 0 by the previous pass, so every key it writes is
`prime 0 ^ 2 * prime k`, independent of the pair rank `r` being iterated;
at iteration (r, k) = (12, 11) it writes key 148 where the claimed
first-principles key `prime 12 ^ 2 * prime 11` is 62197. -/
theorem threeCard_twoPair_stale_key :
    iStale3 = 0 ∧
    threeTwoPairAssignments.all (fun e => e.2 == prime 0 ^ 2 * prime e.1.2) = true ∧
    ((12, 11), 148) ∈ threeTwoPairAssignments ∧
    prime 0 ^ 2 * prime 11 = 148 ∧
    prime 12 ^ 2 * prime 11 = 62197 ∧ (148 : Nat) ≠ 62197 := by
  refine ⟨by decide, by decide, by decide, by decide, by decide, by decide⟩

/-- The running-minimum fold used by the evaluator: its result is the
initial bound or a list element, is at most the initial bound, and is at
most every list element. -/
theorem foldl_min_spec (l : List Nat) : ∀ M : Nat,
    (l.foldl (fun m s => if s < m then s else m) M ∈ M :: l) ∧
    (l.foldl (fun m s => if s < m then s else m) M ≤ M) ∧
    (∀ s ∈ l, l.foldl (fun m s => if s < m then s else m) M ≤ s) := by
  induction l with
  | nil => intro M; refine ⟨by simp, le_refl M, by simp⟩
  | cons a l ih =>
    intro M
    simp only [List.foldl_cons]
    obtain ⟨hmem, hle, hall⟩ := ih (if a < M then a else M)
    have hsplit : (if a < M then a else M) ≤ M ∧ (if a < M then a else M) ≤ a := by
      by_cases h : a < M <;> simp [h] <;> omega
    refine ⟨?_, by omega, ?_⟩
    · rcases List.mem_cons.mp hmem with h | h
      · rw [h]
        by_cases hc : a < M <;> simp [hc]
      · simp [h]
    · intro s hs
      rcases List.mem_cons.mp hs with rfl | hsl
      · omega
      · exact hall s hsl

/-- C4: for every 8-, 9- or 10-card input, `_eightnineten` returns the
minimum five-card score over the 2-card combinations drawn from the first
five cards of the input (regardless of total hand length), each
concatenated with all remaining board cards: its result is one of those
scores and is a lower bound of all of them. -/
theorem eightnineten_returns_minimum (five : List Card → Nat) (cards : List Card)
    (hlen : cards.length = 8 ∨ cards.length = 9 ∨ cards.length = 10)
    (hfive : ∀ l ∈ all5cardscombos cards, five l ≤ MAX_HIGH_CARD) :
    eightnineten five cards ∈ (all5cardscombos cards).map five ∧
    ∀ s ∈ (all5cardscombos cards).map five, eightnineten five cards ≤ s := by
  have hfold : eightnineten five cards
      = ((all5cardscombos cards).map five).foldl (fun m s => if s < m then s else m)
        MAX_HIGH_CARD := by
    rw [eightnineten, List.foldl_map]
  have htake : (cards.take 5).length = 5 := by
    rw [List.length_take]
    omega
  have hcomb : (all2cardscombos cards).length = 10 := by
    rw [all2cardscombos, combinations_length, htake]
    decide
  have hne : (all5cardscombos cards).map five ≠ [] := by
    have hl : ((all5cardscombos cards).map five).length = 10 := by
      rw [List.length_map, all5cardscombos, List.length_map, hcomb]
    intro hcon
    rw [hcon] at hl
    simp at hl
  obtain ⟨hmem, hle, hall⟩ := foldl_min_spec ((all5cardscombos cards).map five) MAX_HIGH_CARD
  rw [hfold]
  constructor
  · rcases List.mem_cons.mp hmem with h | h
    · obtain ⟨s0, hs0⟩ := List.exists_mem_of_ne_nil _ hne
      have hub : s0 ≤ MAX_HIGH_CARD := by
        obtain ⟨l0, hl0, hfl⟩ := List.mem_map.mp hs0
        rw [← hfl]
        exact hfive l0 hl0
      have hlb := hall s0 hs0
      rw [h] at hlb
      have heq : s0 = MAX_HIGH_CARD := le_antisymm hub hlb
      rw [h, ← heq]
      exact hs0
    · exact h
  · exact hall

/-- Witness for C4: on a concrete 8-card input with the card-count
scorer, the evaluator's result is one of the ten scores and bounds them
all below. -/
theorem eightnineten_returns_minimum_witness :
    eightnineten (fun l => l.length) (List.replicate 8 (Card.mk 0 0)) ∈
      ((all5cardscombos (List.replicate 8 (Card.mk 0 0))).map (fun l => l.length)) ∧
    ∀ s ∈ (all5cardscombos (List.replicate 8 (Card.mk 0 0))).map (fun l => l.length),
      eightnineten (fun l => l.length) (List.replicate 8 (Card.mk 0 0)) ≤ s :=
  eightnineten_returns_minimum (fun l => l.length) (List.replicate 8 (Card.mk 0 0))
    (Or.inl (by decide)) (by decide)

/-- C8: the evaluator returns exactly one integer rank for every input of
length 5 to 10 and fails with the unsupported-hand-size error, returning
no result, for every other length. -/
theorem evaluator_hand_size_contract (cards : List Card) :
    (¬ (5 ≤ cards.length ∧ cards.length ≤ 10) →
        evaluateHand cards = .error "unsupported hand size") ∧
    ((5 ≤ cards.length ∧ cards.length ≤ 10) → ∃ r : Nat, evaluateHand cards = .ok r) := by
  unfold evaluateHand
  constructor
  · intro h
    rw [if_neg (by omega), if_neg (by omega), if_neg (by omega)]
  · intro h
    by_cases h5 : cards.length = 5
    · rw [if_pos h5]
      exact ⟨_, rfl⟩
    · by_cases h67 : cards.length = 6 ∨ cards.length = 7
      · rw [if_neg h5, if_pos h67]
        exact ⟨_, rfl⟩
      · have h8 : cards.length = 8 ∨ cards.length = 9 ∨ cards.length = 10 := by omega
        rw [if_neg h5, if_neg h67, if_pos h8]
        exact ⟨_, rfl⟩

/-- Witness for C8: a 4-card input errors; a 5-card input returns a rank. -/
theorem evaluator_hand_size_contract_witness :
    evaluateHand (List.replicate 4 (Card.mk 0 0)) = .error "unsupported hand size" ∧
    ∃ r : Nat, evaluateHand (List.replicate 5 (Card.mk 0 0)) = .ok r :=
  ⟨(evaluator_hand_size_contract (List.replicate 4 (Card.mk 0 0))).1 (by decide),
   (evaluator_hand_size_contract (List.replicate 5 (Card.mk 0 0))).2 (by decide)⟩

/-- C9 counterexample: on an 8-card input the Omaha path enumerates
C(5,2) = 10 two-card hole pairings, which exceeds the claimed bound
C(4,2) = 6. -/
theorem omaha_pairings_exceed_six :
    (all2cardscombos (List.replicate 8 (Card.mk 0 0))).length = 10 ∧
    ¬ ((all2cardscombos (List.replicate 8 (Card.mk 0 0))).length ≤ 6) := by
  refine ⟨by decide, by decide⟩

/-- C9 (amended): every evaluation is a bounded finite enumeration: the
8-to-10-card path enumerates at most C(5,2) = 10 two-card hole pairings
(ten, not six, since the pool is the first five cards), hence at most 10
five-card combos, and a C(n,5) subset enumeration over at most 10 cards
scores at most C(10,5) = 252 subsets. -/
theorem omaha_bounded_enumeration :
    (∀ cards : List Card, (all2cardscombos cards).length ≤ 10) ∧
    (∀ cards : List Card, (all5cardscombos cards).length ≤ 10) ∧
    (∀ cards : List Card, cards.length ≤ 10 → (combinations 5 cards).length ≤ 252) := by
  have h2 : ∀ cards : List Card, (all2cardscombos cards).length ≤ 10 := by
    intro cards
    rw [all2cardscombos, combinations_length]
    have hlen : (cards.take 5).length ≤ 5 := by
      rw [List.length_take]
      omega
    calc (cards.take 5).length.choose 2 ≤ Nat.choose 5 2 := Nat.choose_le_choose 2 hlen
    _ = 10 := by decide
  refine ⟨h2, ?_, ?_⟩
  · intro cards
    rw [all5cardscombos, List.length_map]
    exact h2 cards
  · intro cards hle
    rw [combinations_length]
    calc cards.length.choose 5 ≤ Nat.choose 10 5 := Nat.choose_le_choose 5 hle
    _ = 252 := by decide

/-- Witness for C9 (amended): a 7-card input scores at most 252 subsets. -/
theorem omaha_bounded_enumeration_witness :
    (combinations 5 (List.replicate 7 (Card.mk 0 0))).length ≤ 252 :=
  omaha_bounded_enumeration.2.2 (List.replicate 7 (Card.mk 0 0)) (by decide)

/-- C7: for every positive seed, the literal Int translation of the
generator step (with Python's `//` as floor division) agrees with the Nat
embedding, every yielded value has exactly the seed's number of set bits,
and each yield is the smallest integer strictly greater than its
predecessor in the sequence (the seed for the first yield) with that
number of set bits. -/
theorem next_word_enumeration (seed : Nat) (hs : 0 < seed) :
    next_word (seed : Int) = ((nextWordN seed : Nat) : Int) ∧
    ∀ i : Nat,
      popCount (nextWordSeq seed i) = popCount seed ∧
      genPred seed i < nextWordSeq seed i ∧
      ∀ n : Nat, genPred seed i < n → popCount n = popCount seed → nextWordSeq seed i ≤ n := by
  refine ⟨next_word_agrees_on_nat seed hs, fun i => ?_⟩
  obtain ⟨hpos, hpc, hlt, hmin⟩ := nextWordSeq_props seed hs i
  refine ⟨hpc, hlt, fun n h1 h2 => ?_⟩
  by_contra hcon
  push_neg at hcon
  exact hmin n h1 hcon h2

/-- Witness for C7: from seed `0b111` the first yield keeps three set
bits, exceeds the seed, and is at most 11 (indeed 11 = `0b1011` is the
next 3-bit word). -/
theorem next_word_enumeration_witness :
    popCount (nextWordSeq 7 0) = popCount 7 ∧ genPred 7 0 < nextWordSeq 7 0 ∧
    nextWordSeq 7 0 ≤ 11 := by
  have h := (next_word_enumeration 7 (by decide)).2 0
  have h7 : popCount 7 = 3 := by
    have := popCount_two_pow_sub_one 3
    norm_num at this
    exact this
  have h11 : popCount 11 = 3 := by
    have hsplit := popCount_split 3 1 3 (by norm_num)
    norm_num at hsplit
    have h3 : popCount 3 = 2 := by
      have := popCount_two_pow_sub_one 2
      norm_num at this
      exact this
    rw [hsplit, popCount_one, h3]
  exact ⟨h.1, h.2.1, h.2.2 11 (by decide) (by rw [h11, h7])⟩

/-- C10: the generator never yields its seed: every yield strictly
exceeds the seed (in particular the first), so a caller that needs the
seed's own pattern must add it separately, as the draw-table builders do
for their window seeds (lookup.py lines 318-328 and 621-627). -/
theorem next_word_never_yields_seed (seed : Nat) (hs : 0 < seed) :
    (∀ i : Nat, seed < nextWordSeq seed i) ∧
    (∀ n : Nat, ∀ x ∈ genFrom seed n, seed < x) ∧
    (4099 : Nat) ∈ straight_flushes3 ∧ (7 : Nat) ∈ straight_flushes3 ∧
    (4103 : Nat) ∈ straight_flushes4 ∧ (15 : Nat) ∈ straight_flushes4 := by
  refine ⟨?_, fun n => genFrom_gt_seed n seed hs, by decide, by decide, by decide, by decide⟩
  intro i
  induction i with
  | zero => exact (nextWordSeq_props seed hs 0).2.2.1
  | succ i ih =>
    have h := (nextWordSeq_props seed hs (i + 1)).2.2.1
    exact lt_trans ih h

/-- Witness for C10: the first yield from seed `0b111` exceeds the seed. -/
theorem next_word_never_yields_seed_witness : (7 : Nat) < nextWordSeq 7 0 :=
  (next_word_never_yields_seed 7 (by decide)).1 0
